import Mathlib

/-!
onlinepp HTTP request manager: shallow embedding of `FHttpManager`

Embedding of `src/http/private/HttpManager.cpp` together with the declarations
of `HttpManager.h`, `IHttpRequest.h` and `HttpThread.h`.

Modelling decisions

* A request object is known to the manager only through a pointer
  (`std::shared_ptr<IHttpRequest>` or a raw `IHttpRequest*`).  Pointers are
  modelled by their identity, a natural number; `shared_ptr` comparison and
  `Request.get() == RequestPtr` are comparisons of identities.
* `float` quantities (`DeltaSeconds`, `TimeLeft`, `DeferredDestroyDelay`) are
  taken as exact rational numbers.
* Calls that leave the manager (virtual calls on a request, calls on the
  worker thread object, log lines) are recorded in a trace of `Effect`s, in
  program order.  The two bookkeeping steps of the deferred-destroy loop of
  `Tick` (the write to `TimeLeft` and the `erase`) are recorded as well.
* The worker thread (`FHttpThread`, whose implementation is not part of the
  sources at hand) is the environment: what `Thread->GetCompletedRequests`
  hands over in a `Tick` is an argument of `Tick`.  The thread object is taken
  as created, that is `Initialize` has run.
* The model is that of the owner thread running one call at a time.  The
  mutex `RequestLock` plays no part in it; what the member functions do with
  the mutex is modelled apart, as their locking steps (`LockSteps`).  A call
  on a request object or on the thread object is taken not to call back into
  the manager.
* `std::list::erase(itr)` invalidates `itr`.  The deferred-destroy loop of
  `Tick` keeps using `itr` after `PendingDestroyRequests.erase(itr)` (the
  result of `erase` is not assigned back), which is undefined behaviour in
  C++.  The embedding makes this explicit: the loop yields `none` from that
  point on, and so does `Tick`.
-/

namespace EHttpRequestStatus

/-- Enumerates the current state of an Http request (`EHttpRequestStatus::Type`). -/
inductive Type_ where
  | NotStarted
  | Processing
  | Failed
  | Failed_ConnectionError
  | Succeeded
  deriving DecidableEq, Repr

/-- Stringified version of the enum passed in (`EHttpRequestStatus::ToString`). -/
def ToString : Type_ → String
  | .NotStarted => "NotStarted"
  | .Processing => "Processing"
  | .Failed => "Failed"
  | .Failed_ConnectionError => "ConnectionError"
  | .Succeeded => "Succeeded"

end EHttpRequestStatus

/-- Identity of a request object, as held by a `std::shared_ptr<IHttpRequest>`
(`FHttpRequestPtr`) or by a raw `IHttpRequest*` / `IHttpThreadedRequest*`. -/
abbrev FHttpRequestPtr := Nat

/-- What the manager reads from and writes to a request object through the
`IHttpRequest` interface: `GetVerb()`, `GetURL()`, `GetStatus()` and the two
delegate slots returned by reference from `OnProcessRequestComplete()` and
`OnRequestProgress()`.  A delegate slot is `none` when the `std::function` is
empty (`nullptr`) and `some k` when callable number `k` is bound. -/
structure IHttpRequest where
  Verb : String
  URL : String
  Status : EHttpRequestStatus.Type_
  OnProcessRequestComplete : Option Nat
  OnRequestProgress : Option Nat
  deriving DecidableEq, Repr

/-- The request objects, by identity. -/
abbrev Objects := FHttpRequestPtr → IHttpRequest

/-- Calls leaving the manager and the bookkeeping steps of `Tick`, in program order. -/
inductive Effect where
  /-- Call `Request->Tick(DeltaSeconds)` on an active request. -/
  | RequestTick (Request : FHttpRequestPtr) (DeltaSeconds : ℚ)
  /-- Write `Request.TimeLeft -= DeltaSeconds` on a deferred-destroy entry; the new value. -/
  | AgePendingDestroy (Request : FHttpRequestPtr) (TimeLeft : ℚ)
  /-- Call `PendingDestroyRequests.erase(itr)` on the entry holding the request. -/
  | ErasePendingDestroy (Request : FHttpRequestPtr)
  /-- Call `Thread->GetCompletedRequests(CompletedThreadedRequests)`. -/
  | GetCompletedRequests
  /-- Call `CompletedRequest->FinishRequest()`. -/
  | FinishRequest (Request : FHttpRequestPtr)
  /-- Call `Thread->AddRequest(Request.get())`. -/
  | ThreadAddRequest (Request : FHttpRequestPtr)
  /-- Call `Thread->CancelRequest(Request.get())`. -/
  | ThreadCancelRequest (Request : FHttpRequestPtr)
  /-- Call `Thread->Tick()`. -/
  | ThreadTick
  /-- Assignment `Request->OnProcessRequestComplete() = nullptr`. -/
  | ClearOnProcessRequestComplete (Request : FHttpRequestPtr)
  /-- Assignment `Request->OnRequestProgress() = nullptr`. -/
  | ClearOnRequestProgress (Request : FHttpRequestPtr)
  /-- Call `LOG_INFO(...)` with the formatted line. -/
  | Log (Line : String)
  /-- The call `Tick(DeltaSeconds)` that `Flush` makes on the manager itself. -/
  | ManagerTick (DeltaSeconds : ℚ)
  /-- Call `Request->ProcessRequest()`: part of the interface, never made by the manager. -/
  | ProcessRequest (Request : FHttpRequestPtr)
  /-- Call `Request->CancelRequest()`: part of the interface, never made by the manager. -/
  | CancelRequest (Request : FHttpRequestPtr)
  deriving DecidableEq, Repr

/-- Keep track of a request that should be deleted later
(`FHttpManager::FRequestPendingDestroy`). -/
structure FRequestPendingDestroy where
  TimeLeft : ℚ
  HttpRequest : FHttpRequestPtr
  deriving DecidableEq, Repr

/-- The data members of `FHttpManager` that the list operations use.
`Requests` is the list of active requests, `PendingDestroyRequests` the dead
requests that wait to be destroyed. -/
structure FHttpManager where
  Requests : List FHttpRequestPtr
  PendingDestroyRequests : List FRequestPendingDestroy
  DeferredDestroyDelay : ℚ
  deriving DecidableEq, Repr

namespace FHttpManager

/-- Constructor `FHttpManager::FHttpManager() : DeferredDestroyDelay(10)`; both
lists start empty. -/
def new : FHttpManager :=
  { Requests := [], PendingDestroyRequests := [], DeferredDestroyDelay := 10 }

/-- The requests held by the deferred-destroy entries, in list order. -/
def PendingRequests (m : FHttpManager) : List FHttpRequestPtr :=
  m.PendingDestroyRequests.map FRequestPendingDestroy.HttpRequest

/-- Member `FHttpManager::AddRequest`: `Requests.push_back(Request)`. -/
def AddRequest (m : FHttpManager) (Request : FHttpRequestPtr) : FHttpManager :=
  { m with Requests := m.Requests ++ [Request] }

/-- Member `FHttpManager::RemoveRequest`: push a deferred-destroy entry with the full
delay, then `std::erase(Requests, Request)`, which removes every element equal
to `Request`.  The function calls nothing on the request or on the thread, so
its trace is empty. -/
def RemoveRequest (m : FHttpManager) (Request : FHttpRequestPtr) :
    FHttpManager × List Effect :=
  ({ m with
      PendingDestroyRequests :=
        m.PendingDestroyRequests ++ [⟨m.DeferredDestroyDelay, Request⟩]
      Requests := m.Requests.filter (fun r => decide (r ≠ Request)) }, [])

/-- The loop of `FHttpManager::IsValidRequest`: `bResult` starts `false`, the
first element with `Request.get() == RequestPtr` sets it and breaks. -/
def IsValidRequest.loop : List FHttpRequestPtr → FHttpRequestPtr → Bool
  | [], _ => false
  | Request :: rest, RequestPtr =>
    if Request = RequestPtr then true else IsValidRequest.loop rest RequestPtr

/-- Member `FHttpManager::IsValidRequest` (a `const` member): the result of the scan
and the manager, to which the function writes nothing. -/
def IsValidRequest (m : FHttpManager) (RequestPtr : FHttpRequestPtr) :
    Bool × FHttpManager :=
  (IsValidRequest.loop m.Requests RequestPtr, m)

/-- Member `FHttpManager::AddThreadedRequest`: `AddRequest(Request)` and then
`Thread->AddRequest(Request.get())`. -/
def AddThreadedRequest (m : FHttpManager) (Request : FHttpRequestPtr) :
    FHttpManager × List Effect :=
  (m.AddRequest Request, [Effect.ThreadAddRequest Request])

/-- Member `FHttpManager::CancelThreadedRequest`: only `Thread->CancelRequest(Request.get())`. -/
def CancelThreadedRequest (m : FHttpManager) (Request : FHttpRequestPtr) :
    FHttpManager × List Effect :=
  (m, [Effect.ThreadCancelRequest Request])

/-- First loop of `Tick`: `Request->Tick(DeltaSeconds)` for each active request. -/
def TickRequests (Requests : List FHttpRequestPtr) (DeltaSeconds : ℚ) : List Effect :=
  Requests.map (fun Request => Effect.RequestTick Request DeltaSeconds)

/-- Second loop of `Tick`, over `PendingDestroyRequests`: every entry met has
`TimeLeft -= DeltaSeconds`; an entry with `TimeLeft <= 0` is erased with
`PendingDestroyRequests.erase(itr)`, after which the loop goes on with the
invalidated `itr` (undefined behaviour: the list is `none` from there on);
otherwise `itr++`.  Gives the trace of the loop and the list it leaves. -/
def TickPendingDestroy :
    List FRequestPendingDestroy → ℚ → List Effect × Option (List FRequestPendingDestroy)
  | [], _ => ([], some [])
  | Request :: rest, DeltaSeconds =>
    let TimeLeft := Request.TimeLeft - DeltaSeconds
    if TimeLeft ≤ 0 then
      ([Effect.AgePendingDestroy Request.HttpRequest TimeLeft,
        Effect.ErasePendingDestroy Request.HttpRequest], none)
    else
      let tail := TickPendingDestroy rest DeltaSeconds
      (Effect.AgePendingDestroy Request.HttpRequest TimeLeft :: tail.1,
        tail.2.map (fun l => { Request with TimeLeft := TimeLeft } :: l))

/-- Third loop of `Tick`, over `CompletedThreadedRequests`: a completed request
not found in `Requests` (`std::find` gives `end()`) is skipped; one that is
found gets a deferred-destroy entry with the full delay, the element found
(the first equal one) is erased from `Requests`, and `FinishRequest()` is
called on it. -/
def FinishCompleted (DeferredDestroyDelay : ℚ) :
    List FHttpRequestPtr → List FHttpRequestPtr → List FRequestPendingDestroy →
      List FHttpRequestPtr × List FRequestPendingDestroy × List Effect
  | [], Requests, Pending => (Requests, Pending, [])
  | CompletedRequest :: rest, Requests, Pending =>
    if CompletedRequest ∈ Requests then
      let next := FinishCompleted DeferredDestroyDelay rest
        (Requests.erase CompletedRequest)
        (Pending ++ [⟨DeferredDestroyDelay, CompletedRequest⟩])
      (next.1, next.2.1, Effect.FinishRequest CompletedRequest :: next.2.2)
    else
      FinishCompleted DeferredDestroyDelay rest Requests Pending

/-- What a call of `Tick` does: the trace of its effects and, when the call
returns, the manager it leaves and the value returned.  `result = none` means
that the behaviour is undefined after the trace (see `TickPendingDestroy`). -/
structure TickOutcome where
  trace : List Effect
  result : Option (FHttpManager × Bool)
  deriving DecidableEq, Repr

/-- Member `FHttpManager::Tick(DeltaSeconds)`; `Completed` is what
`Thread->GetCompletedRequests` puts into `CompletedThreadedRequests`. -/
def Tick (m : FHttpManager) (DeltaSeconds : ℚ) (Completed : List FHttpRequestPtr) :
    TickOutcome :=
  let ticked := TickRequests m.Requests DeltaSeconds
  let aged := TickPendingDestroy m.PendingDestroyRequests DeltaSeconds
  match aged.2 with
  | none => { trace := ticked ++ aged.1, result := none }
  | some Pending =>
    let done := FinishCompleted m.DeferredDestroyDelay Completed m.Requests Pending
    { trace := ticked ++ aged.1 ++ Effect.GetCompletedRequests :: done.2.2
      result := some ({ m with Requests := done.1, PendingDestroyRequests := done.2.1 }, true) }

/-- The block of `Flush` guarded by `bShutdown`, its loop over `Requests`: both
delegate slots of the request are assigned `nullptr`, then one line is logged
from `GetVerb()`, `GetURL()` and `ToString(GetStatus())`.  The format string is
a tab followed by `verb={} url={} status={}`. -/
def FlushShutdown.loop : List FHttpRequestPtr → Objects → Objects × List Effect
  | [], objects => (objects, [])
  | Request :: rest, objects =>
    let cleared : Objects := Function.update objects Request
      { objects Request with OnProcessRequestComplete := none, OnRequestProgress := none }
    let Line := "\tverb=" ++ (cleared Request).Verb ++ " url=" ++ (cleared Request).URL
      ++ " status=" ++ EHttpRequestStatus.ToString (cleared Request).Status
    let next := FlushShutdown.loop rest cleared
    (next.1, Effect.ClearOnProcessRequestComplete Request ::
      Effect.ClearOnRequestProgress Request :: Effect.Log Line :: next.2)

/-- The block of `Flush` guarded by `bShutdown`: when `Requests.size()` is not
zero a header line with the number of outstanding requests, then the loop. -/
def FlushShutdown (m : FHttpManager) (objects : Objects) : Objects × List Effect :=
  let header :=
    if m.Requests.length ≠ 0 then
      [Effect.Log ("Http module shutting down, but needs to wait on "
        ++ toString m.Requests.length ++ " outstanding Http requests:")]
    else []
  let looped := FlushShutdown.loop m.Requests objects
  (looped.1, header ++ looped.2)

/-- What surrounds the manager during `Flush`: the readings of
`std::chrono::steady_clock::now()` in clock ticks (reading `0` is the one taken
before the loop, reading `k + 1` the one of iteration `k`), the number of clock
ticks in a second, and what `Thread->GetCompletedRequests` hands over in the
`Tick` of iteration `k`. -/
structure Environment where
  now : Nat → Int
  TicksPerSecond : Int
  Completed : Nat → List FHttpRequestPtr

/-- How a run of the loop of `Flush` ends: it returns and leaves a manager, its
behaviour is undefined (a `Tick` was), or the iterations granted are used up. -/
inductive FlushResult where
  | returned (m : FHttpManager)
  | undefined
  | outOfFuel
  deriving DecidableEq, Repr

/-- Trace and end of a run of the loop of `Flush`. -/
structure LoopOutcome where
  trace : List Effect
  result : FlushResult

/-- The value `std::chrono::duration_cast<std::chrono::seconds>(AppTime - LastTime).count()`
passed to `Tick`: whole seconds, rounded towards zero. -/
def FlushDeltaSeconds (env : Environment) (AppTime LastTime : Int) : ℚ :=
  ((Int.tdiv (AppTime - LastTime) env.TicksPerSecond : Int) : ℚ)

/-- The loop `while (Requests.size() > 0)` of `Flush`, with at most `fuel`
iterations; `k` counts the iterations done.  An iteration reads the clock,
calls `Tick` with the whole seconds since `LastTime`, and calls
`Thread->Tick()` when requests remain. -/
def FlushLoop (env : Environment) : Nat → Nat → Int → FHttpManager → LoopOutcome
  | 0, _, _, m =>
    { trace := [], result := if 0 < m.Requests.length then .outOfFuel else .returned m }
  | fuel + 1, k, LastTime, m =>
    if 0 < m.Requests.length then
      let AppTime := env.now (k + 1)
      let DeltaSeconds := FlushDeltaSeconds env AppTime LastTime
      let ticked := m.Tick DeltaSeconds (env.Completed k)
      match ticked.result with
      | none => { trace := Effect.ManagerTick DeltaSeconds :: ticked.trace, result := .undefined }
      | some after =>
        let pump := if 0 < after.1.Requests.length then [Effect.ThreadTick] else []
        let next := FlushLoop env fuel (k + 1) AppTime after.1
        { trace := Effect.ManagerTick DeltaSeconds :: ticked.trace ++ pump ++ next.trace
          result := next.result }
    else { trace := [], result := .returned m }

/-- Trace and end of a call of `Flush`, with the request objects as the
`bShutdown` block leaves them, that is as they are when the loop is entered. -/
structure FlushOutcome where
  trace : List Effect
  objects : Objects
  result : FlushResult

/-- Member `FHttpManager::Flush(bShutdown)`, its loop run for at most `fuel` iterations. -/
def Flush (m : FHttpManager) (bShutdown : Bool) (objects : Objects) (env : Environment)
    (fuel : Nat) : FlushOutcome :=
  let shut := if bShutdown then FlushShutdown m objects else (objects, [])
  let LastTime := env.now 0
  let looped := FlushLoop env fuel 0 LastTime m
  { trace := shut.2 ++ looped.trace, objects := shut.1, result := looped.result }

/-- Member `FHttpManager::DumpRequests` (a `const` member): a header line with the
number of requests, then one line for each request. -/
def DumpRequests (m : FHttpManager) (objects : Objects) : List Effect :=
  Effect.Log ("------- (" ++ toString m.Requests.length ++ ") Http Requests") ::
    m.Requests.map (fun Request =>
      Effect.Log ("verb=[" ++ (objects Request).Verb ++ "] url=[" ++ (objects Request).URL
        ++ "] status=" ++ EHttpRequestStatus.ToString (objects Request).Status))

/-- A call on the manager from the owner thread. -/
inductive Call where
  | AddRequest (Request : FHttpRequestPtr)
  | AddThreadedRequest (Request : FHttpRequestPtr)
  | RemoveRequest (Request : FHttpRequestPtr)
  | CancelThreadedRequest (Request : FHttpRequestPtr)
  | Tick (DeltaSeconds : ℚ) (Completed : List FHttpRequestPtr)
  deriving DecidableEq, Repr

/-- The manager a call leaves; `none` when the call is a `Tick` whose behaviour
is undefined. -/
def call (m : FHttpManager) : Call → Option FHttpManager
  | .AddRequest Request => some (m.AddRequest Request)
  | .AddThreadedRequest Request => some (m.AddThreadedRequest Request).1
  | .RemoveRequest Request => some (m.RemoveRequest Request).1
  | .CancelThreadedRequest Request => some (m.CancelThreadedRequest Request).1
  | .Tick DeltaSeconds Completed => ((m.Tick DeltaSeconds Completed).result).map Prod.fst

/-- The manager a sequence of calls leaves, each made on what the one before left. -/
def calls : FHttpManager → List Call → Option FHttpManager
  | m, [] => some m
  | m, c :: rest =>
    match m.call c with
    | none => none
    | some after => calls after rest

/-- The caller adds only requests that the manager holds in neither list at
the time of the call. -/
def AddsUntracked : FHttpManager → List Call → Prop
  | _, [] => True
  | m, c :: rest =>
    (match c with
      | .AddRequest Request => Request ∉ m.Requests ∧ Request ∉ m.PendingRequests
      | .AddThreadedRequest Request => Request ∉ m.Requests ∧ Request ∉ m.PendingRequests
      | _ => True) ∧
    (match m.call c with
      | none => True
      | some after => AddsUntracked after rest)

/-- A sequence of `Tick` calls, each with its `DeltaSeconds` and with what the
worker hands over in it: the trace of every call made, and the manager left
when all of them return. -/
def Ticks : FHttpManager → List (ℚ × List FHttpRequestPtr) →
    List (List Effect) × Option FHttpManager
  | m, [] => ([], some m)
  | m, t :: rest =>
    let ticked := m.Tick t.1 t.2
    match ticked.result with
    | none => ([ticked.trace], none)
    | some after =>
      let next := Ticks after.1 rest
      (ticked.trace :: next.1, next.2)

end FHttpManager

/-- The request on which an effect is a call through the `IHttpRequest` /
`IHttpThreadedRequest` interface, when it is one.  The bookkeeping of the
deferred-destroy list, the calls on the thread object and the log lines are
not calls on a request. -/
def Effect.invokedOn : Effect → Option FHttpRequestPtr
  | .RequestTick Request _ => some Request
  | .FinishRequest Request => some Request
  | .ClearOnProcessRequestComplete Request => some Request
  | .ClearOnRequestProgress Request => some Request
  | .ProcessRequest Request => some Request
  | .CancelRequest Request => some Request
  | _ => none

/-- The effect is the ageing or the erasure of a deferred-destroy entry. -/
def Effect.isPendingDestroyStep : Effect → Bool
  | .AgePendingDestroy _ _ => true
  | .ErasePendingDestroy _ => true
  | _ => false

/-- The effect is a `Request->Tick` call. -/
def Effect.isRequestTick : Effect → Bool
  | .RequestTick _ _ => true
  | _ => false

/-- The effect is a `FinishRequest` call. -/
def Effect.isFinishRequest : Effect → Bool
  | .FinishRequest _ => true
  | _ => false

/-- A deferred-destroy entry after `TimeLeft -= DeltaSeconds`. -/
def FRequestPendingDestroy.aged (Request : FRequestPendingDestroy) (DeltaSeconds : ℚ) :
    FRequestPendingDestroy :=
  { Request with TimeLeft := Request.TimeLeft - DeltaSeconds }

/-- In the trace every effect of kind `p` comes before every effect of kind `q`. -/
def Precedes (p q : Effect → Bool) (t : List Effect) : Prop :=
  ∀ (i j : Nat) (hi : i < t.length) (hj : j < t.length),
    p (t[i]) = true → q (t[j]) = true → i < j

/-- The effect is the call `Thread->GetCompletedRequests`. -/
def Effect.isGetCompletedRequests : Effect → Bool
  | .GetCompletedRequests => true
  | _ => false

/-- No request is held by both lists of the manager, and none is twice in the
active list. -/
def FHttpManager.SingleOwner (m : FHttpManager) : Prop :=
  m.Requests.Nodup ∧ ∀ r ∈ m.Requests, r ∉ m.PendingRequests

/-- The effect is the assignment of `nullptr` to a delegate slot of a request. -/
def Effect.isClearDelegate : Effect → Bool
  | .ClearOnProcessRequestComplete _ => true
  | .ClearOnRequestProgress _ => true
  | _ => false

/-- The effect belongs to the ticking done by the loop of `Flush`: the call of
`Tick` on the manager, anything that call does, or the call of `Thread->Tick()`. -/
def Effect.isTicking : Effect → Bool
  | .ManagerTick _ => true
  | .RequestTick _ _ => true
  | .AgePendingDestroy _ _ => true
  | .ErasePendingDestroy _ => true
  | .GetCompletedRequests => true
  | .FinishRequest _ => true
  | .ThreadTick => true
  | _ => false

namespace FHttpManager

/-- The manager after `k` iterations of the loop of `Flush` started on `m`,
the exit test left aside; `none` when the behaviour of one of the `Tick` calls
is undefined. -/
def Pumped (env : Environment) (m : FHttpManager) : Nat → Option FHttpManager
  | 0 => some m
  | k + 1 =>
    match Pumped env m k with
    | none => none
    | some mid =>
      ((mid.Tick (FlushDeltaSeconds env (env.now (k + 1)) (env.now k))
        (env.Completed k)).result).map Prod.fst

/-- The backend always eventually reports completion: whenever a request is
in the active list after some number of iterations of the loop of `Flush`,
the worker hands that request over in that iteration or in a later one. -/
def EventuallyReported (env : Environment) (m : FHttpManager) : Prop :=
  ∀ (k : Nat) (mid : FHttpManager), Pumped env m k = some mid →
    ∀ r ∈ mid.Requests, ∃ j, k ≤ j ∧ r ∈ env.Completed j

/-- An environment for examples: the clock has one tick in a second and its
successive readings are one second apart; the worker hands request 1 over in
the first `Tick`, nothing in the next nine, and requests 1 and 2 in every
`Tick` from the eleventh on. -/
def slowEnvironment : Environment :=
  { now := fun k => (k : Int), TicksPerSecond := 1,
    Completed := fun k => if k = 0 then [1] else if k < 10 then [] else [1, 2] }

end FHttpManager

/-- An environment for examples: successive clock readings are less than a
second apart (all are 0, with 1000 ticks in a second), and the worker hands
request 1 over in every `Tick`. -/
def FHttpManager.promptEnvironment : FHttpManager.Environment :=
  { now := fun _ => 0, TicksPerSecond := 1000, Completed := fun _ => [1] }

/-- The caller adds only requests that are not in the active list at the time
of the call. -/
def FHttpManager.AddsInactive : FHttpManager → List FHttpManager.Call → Prop
  | _, [] => True
  | m, c :: rest =>
    (match c with
      | .AddRequest Request => Request ∉ m.Requests
      | .AddThreadedRequest Request => Request ∉ m.Requests
      | _ => True) ∧
    (match m.call c with
      | none => True
      | some after => FHttpManager.AddsInactive after rest)

/-- The effect is a log line. -/
def Effect.isLog : Effect → Bool
  | .Log _ => true
  | _ => false

/-- The line of the specification for a request with verb `V`, URL `U` and
status name `S`: the text `verb=` followed by `V`, ` url=` followed by `U` and
` status=` followed by `S`. -/
def LogLineOfSpec (V U S : String) : String :=
  "verb=" ++ V ++ " url=" ++ U ++ " status=" ++ S

namespace FHttpManager

/-- The mutexes of the manager: its one `std::mutex` member. -/
inductive Mutex where
  | RequestLock
  deriving DecidableEq, Repr

/-- The two lists of the manager. -/
inductive ManagerList where
  | Requests
  | PendingDestroyRequests
  deriving DecidableEq, Repr

/-- The member functions that start with the statement `std::scoped_lock(RequestLock);`. -/
inductive LockingMember where
  | AddRequest
  | RemoveRequest
  | Tick
  | DumpRequests
  deriving DecidableEq, Repr

/-- What a member function does that matters for the locking discipline, in
program order: the declaration of a local `std::scoped_lock` object, which
locks the mutexes it is constructed from and holds them to the end of the
function body, and the mutations and scans of the lists. -/
inductive LockStep where
  | ScopedLock (Mutexes : List Mutex)
  | Mutate (List_ : ManagerList)
  | Scan (List_ : ManagerList)
  deriving DecidableEq, Repr

/-- The first statement of the four member functions,
`std::scoped_lock(RequestLock);`.  A statement of this shape is a declaration:
it declares a local variable named `RequestLock`, of type `std::scoped_lock<>`,
constructed from no argument, which hides the member of the same name.  The
object is constructed from no mutex and locks none. -/
def ScopedLockStatement : LockStep :=
  LockStep.ScopedLock []

/-- The locking steps of the four member functions, from their bodies.
`AddRequest`: `push_back` on `Requests`.  `RemoveRequest`: `push_back` on
`PendingDestroyRequests`, `std::erase` on `Requests`.  `Tick`: the loop over
`Requests`, the loop over `PendingDestroyRequests` which writes `TimeLeft` and
erases, and for the completed requests `std::find` in `Requests`, `push_back`
on `PendingDestroyRequests` and `erase` on `Requests`.  `DumpRequests`:
`Requests.size()` and the loop over `Requests`. -/
def LockSteps : LockingMember → List LockStep
  | .AddRequest => [ScopedLockStatement, .Mutate .Requests]
  | .RemoveRequest =>
    [ScopedLockStatement, .Mutate .PendingDestroyRequests, .Mutate .Requests]
  | .Tick =>
    [ScopedLockStatement, .Scan .Requests, .Mutate .PendingDestroyRequests,
      .Scan .Requests, .Mutate .PendingDestroyRequests, .Mutate .Requests]
  | .DumpRequests => [ScopedLockStatement, .Scan .Requests, .Scan .Requests]

/-- The list accesses among the steps, each with the mutexes held when it is
made; `held` are the mutexes held before the first step. -/
def ListAccesses : List Mutex → List LockStep → List (ManagerList × List Mutex)
  | _, [] => []
  | held, .ScopedLock Mutexes :: rest => ListAccesses (held ++ Mutexes) rest
  | held, .Mutate l :: rest => (l, held) :: ListAccesses held rest
  | held, .Scan l :: rest => (l, held) :: ListAccesses held rest

end FHttpManager

/-! ## Lemmas on the loops -/

namespace FHttpManager

theorem IsValidRequest.loop_eq_true_iff (Requests : List FHttpRequestPtr)
    (RequestPtr : FHttpRequestPtr) :
    IsValidRequest.loop Requests RequestPtr = true ↔ RequestPtr ∈ Requests := by
  induction Requests with
  | nil => simp [IsValidRequest.loop]
  | cons Request rest ih =>
    unfold IsValidRequest.loop
    by_cases h : Request = RequestPtr
    · simp [h]
    · have h2 : ¬ RequestPtr = Request := fun e => h e.symm
      simp [h, h2, ih]

theorem TickPendingDestroy_some (Pending : List FRequestPendingDestroy) (DeltaSeconds : ℚ) :
    ∀ left, (TickPendingDestroy Pending DeltaSeconds).2 = some left →
      left = Pending.map (fun e => e.aged DeltaSeconds) ∧
      ∀ e ∈ Pending, 0 < e.TimeLeft - DeltaSeconds := by
  induction Pending with
  | nil =>
    intro left h
    simp only [TickPendingDestroy, Option.some.injEq] at h
    subst h
    simp
  | cons e rest ih =>
    intro left h
    unfold TickPendingDestroy at h
    by_cases hle : e.TimeLeft - DeltaSeconds ≤ 0
    · simp [hle] at h
    · simp only [hle, if_false] at h
      cases hrest : (TickPendingDestroy rest DeltaSeconds).2 with
      | none => simp [hrest] at h
      | some l =>
        obtain ⟨hl, hpos⟩ := ih l hrest
        simp only [hrest, Option.map_some', Option.some.injEq] at h
        refine ⟨?_, ?_⟩
        · rw [← h, hl]
          simp [FRequestPendingDestroy.aged]
        · intro x hx
          rcases List.mem_cons.mp hx with rfl | hx
          · exact lt_of_not_ge hle
          · exact hpos x hx

theorem TickPendingDestroy_of_pos (Pending : List FRequestPendingDestroy) (DeltaSeconds : ℚ)
    (hpos : ∀ e ∈ Pending, 0 < e.TimeLeft - DeltaSeconds) :
    (TickPendingDestroy Pending DeltaSeconds).2 =
      some (Pending.map (fun e => e.aged DeltaSeconds)) := by
  induction Pending with
  | nil => simp [TickPendingDestroy]
  | cons e rest ih =>
    have he : ¬ e.TimeLeft - DeltaSeconds ≤ 0 := not_le.mpr (hpos e (List.mem_cons_self _ _))
    have hrest := ih (fun x hx => hpos x (List.mem_cons_of_mem _ hx))
    unfold TickPendingDestroy
    simp [he, hrest, FRequestPendingDestroy.aged]

theorem TickPendingDestroy_none_of_expired (Pending : List FRequestPendingDestroy)
    (DeltaSeconds : ℚ) (e : FRequestPendingDestroy) (he : e ∈ Pending)
    (hle : e.TimeLeft - DeltaSeconds ≤ 0) :
    (TickPendingDestroy Pending DeltaSeconds).2 = none := by
  cases h : (TickPendingDestroy Pending DeltaSeconds).2 with
  | none => rfl
  | some left =>
    have := (TickPendingDestroy_some Pending DeltaSeconds left h).2 e he
    exact absurd hle (not_le.mpr this)

theorem TickPendingDestroy_trace (Pending : List FRequestPendingDestroy) (DeltaSeconds : ℚ) :
    ∀ e ∈ (TickPendingDestroy Pending DeltaSeconds).1, e.isPendingDestroyStep = true := by
  induction Pending with
  | nil => simp [TickPendingDestroy]
  | cons x rest ih =>
    unfold TickPendingDestroy
    by_cases hle : x.TimeLeft - DeltaSeconds ≤ 0
    · simp [hle, Effect.isPendingDestroyStep]
    · simp only [hle, if_false]
      intro e he
      rcases List.mem_cons.mp he with rfl | he
      · rfl
      · exact ih e he

theorem FinishCompleted_struct (D : ℚ) (Completed : List FHttpRequestPtr) :
    ∀ (Requests : List FHttpRequestPtr) (Pending : List FRequestPendingDestroy),
      ∃ fin : List FHttpRequestPtr,
        (FinishCompleted D Completed Requests Pending).2.2 = fin.map Effect.FinishRequest ∧
        (FinishCompleted D Completed Requests Pending).2.1 =
          Pending ++ fin.map (fun c => (⟨D, c⟩ : FRequestPendingDestroy)) ∧
        (∀ r, fin.count r = min (Completed.count r) (Requests.count r)) ∧
        (∀ r, (FinishCompleted D Completed Requests Pending).1.count r =
          Requests.count r - Completed.count r) ∧
        (FinishCompleted D Completed Requests Pending).1.Sublist Requests := by
  induction Completed with
  | nil =>
    intro Requests Pending
    exact ⟨[], by simp [FinishCompleted]⟩
  | cons c rest ih =>
    intro Requests Pending
    by_cases hc : c ∈ Requests
    · obtain ⟨fin, h1, h2, h3, h4, h5⟩ := ih (Requests.erase c) (Pending ++ [⟨D, c⟩])
      refine ⟨c :: fin, ?_, ?_, ?_, ?_, ?_⟩
      · simp [FinishCompleted, hc, h1]
      · simp [FinishCompleted, hc, h2]
      · intro r
        have hcount := h3 r
        have hpos : 1 ≤ Requests.count c := List.one_le_count_iff.mpr hc
        by_cases hrc : r = c
        · subst hrc
          rw [List.count_cons_self, hcount, List.count_cons_self, List.count_erase_self]
          omega
        · have hcr : ¬ c = r := fun e => hrc e.symm
          rw [List.count_cons_of_ne hrc, hcount, List.count_cons_of_ne hrc,
            List.count_erase_of_ne hrc]
      · intro r
        have hcount := h4 r
        simp only [FinishCompleted, hc, if_true]
        rw [hcount]
        by_cases hrc : r = c
        · subst hrc
          rw [List.count_cons_self, List.count_erase_self]
          omega
        · rw [List.count_cons_of_ne hrc, List.count_erase_of_ne hrc]
      · simp only [FinishCompleted, hc, if_true]
        exact h5.trans (List.erase_sublist _ _)
    · obtain ⟨fin, h1, h2, h3, h4, h5⟩ := ih Requests Pending
      have hzero : Requests.count c = 0 := List.count_eq_zero_of_not_mem hc
      refine ⟨fin, ?_, ?_, ?_, ?_, ?_⟩
      · simp [FinishCompleted, hc, h1]
      · simp [FinishCompleted, hc, h2]
      · intro r
        rw [h3 r]
        by_cases hrc : r = c
        · subst hrc
          rw [hzero]
          simp
        · rw [List.count_cons_of_ne hrc]
      · intro r
        simp only [FinishCompleted, hc, if_false]
        rw [h4 r]
        by_cases hrc : r = c
        · subst hrc
          rw [hzero]
          simp
        · rw [List.count_cons_of_ne hrc]
      · simp only [FinishCompleted, hc, if_false]
        exact h5

theorem FinishCompleted_of_not_active (D : ℚ) (Completed Requests : List FHttpRequestPtr)
    (Pending : List FRequestPendingDestroy) (h : ∀ c ∈ Completed, c ∉ Requests) :
    FinishCompleted D Completed Requests Pending = (Requests, Pending, []) := by
  induction Completed with
  | nil => rfl
  | cons c rest ih =>
    have hc : c ∉ Requests := h c (List.mem_cons_self _ _)
    simp only [FinishCompleted, hc, if_false]
    exact ih (fun x hx => h x (List.mem_cons_of_mem _ hx))

/-- What a returning `Tick` leaves, in terms of the list `fin` of the completed
requests it found active, in the order in which it finished them. -/
theorem Tick_returns (m : FHttpManager) (DeltaSeconds : ℚ) (Completed : List FHttpRequestPtr)
    (out : FHttpManager × Bool) (h : (m.Tick DeltaSeconds Completed).result = some out) :
    ∃ fin : List FHttpRequestPtr,
      (∀ e ∈ m.PendingDestroyRequests, 0 < e.TimeLeft - DeltaSeconds) ∧
      out.2 = true ∧
      out.1.DeferredDestroyDelay = m.DeferredDestroyDelay ∧
      out.1.PendingDestroyRequests =
        m.PendingDestroyRequests.map (fun e => e.aged DeltaSeconds) ++
          fin.map (fun c => (⟨m.DeferredDestroyDelay, c⟩ : FRequestPendingDestroy)) ∧
      (m.Tick DeltaSeconds Completed).trace =
        TickRequests m.Requests DeltaSeconds ++
          (TickPendingDestroy m.PendingDestroyRequests DeltaSeconds).1 ++
          Effect.GetCompletedRequests :: fin.map Effect.FinishRequest ∧
      (∀ r, fin.count r = min (Completed.count r) (m.Requests.count r)) ∧
      (∀ r, out.1.Requests.count r = m.Requests.count r - Completed.count r) ∧
      out.1.Requests.Sublist m.Requests ∧
      out.1.Requests = (FinishCompleted m.DeferredDestroyDelay Completed m.Requests
        (m.PendingDestroyRequests.map (fun e => e.aged DeltaSeconds))).1 := by
  unfold Tick at h ⊢
  cases hp : (TickPendingDestroy m.PendingDestroyRequests DeltaSeconds).2 with
  | none => simp [hp] at h
  | some left =>
    obtain ⟨hleft, hpos⟩ := TickPendingDestroy_some _ _ left hp
    subst hleft
    obtain ⟨fin, h1, h2, h3, h4, h5⟩ :=
      FinishCompleted_struct m.DeferredDestroyDelay Completed m.Requests
        (m.PendingDestroyRequests.map (fun e => e.aged DeltaSeconds))
    simp only [hp, Option.some.injEq] at h ⊢
    subst h
    exact ⟨fin, hpos, rfl, rfl, h2, by rw [h1], h3, h4, h5, rfl⟩

theorem Tick_undefined_iff (m : FHttpManager) (DeltaSeconds : ℚ)
    (Completed : List FHttpRequestPtr) :
    (m.Tick DeltaSeconds Completed).result = none ↔
      ∃ e ∈ m.PendingDestroyRequests, e.TimeLeft - DeltaSeconds ≤ 0 := by
  constructor
  · intro h
    by_contra hne
    have hpos : ∀ e ∈ m.PendingDestroyRequests, 0 < e.TimeLeft - DeltaSeconds := by
      intro e he
      by_contra hle
      exact hne ⟨e, he, not_lt.mp hle⟩
    have hp := TickPendingDestroy_of_pos _ _ hpos
    simp [Tick, hp] at h
  · rintro ⟨e, he, hle⟩
    have hp := TickPendingDestroy_none_of_expired _ _ e he hle
    simp [Tick, hp]

theorem Tick_trace_shape (m : FHttpManager) (DeltaSeconds : ℚ)
    (Completed : List FHttpRequestPtr) :
    ∃ drained : List Effect,
      (m.Tick DeltaSeconds Completed).trace =
        TickRequests m.Requests DeltaSeconds ++
          (TickPendingDestroy m.PendingDestroyRequests DeltaSeconds).1 ++ drained ∧
      ∀ e ∈ drained, e = Effect.GetCompletedRequests ∨
        ∃ r, e = Effect.FinishRequest r ∧ r ∈ m.Requests := by
  cases hres : (m.Tick DeltaSeconds Completed).result with
  | none =>
    refine ⟨[], ?_, by simp⟩
    have hp : (TickPendingDestroy m.PendingDestroyRequests DeltaSeconds).2 = none := by
      cases hp : (TickPendingDestroy m.PendingDestroyRequests DeltaSeconds).2 with
      | none => rfl
      | some left => simp [Tick, hp] at hres
    simp [Tick, hp]
  | some out =>
    obtain ⟨fin, -, -, -, -, htrace, hcount, -, -, -⟩ := Tick_returns m _ _ out hres
    refine ⟨Effect.GetCompletedRequests :: fin.map Effect.FinishRequest, htrace, ?_⟩
    intro e he
    rcases List.mem_cons.mp he with rfl | he
    · exact Or.inl rfl
    · obtain ⟨r, hr, rfl⟩ := List.mem_map.mp he
      refine Or.inr ⟨r, rfl, ?_⟩
      have h1 : 0 < fin.count r := List.count_pos_iff.mpr hr
      rw [hcount r] at h1
      exact List.count_pos_iff.mp (lt_of_lt_of_le h1 (min_le_right _ _))

theorem Precedes_append (p q : Effect → Bool) (a b : List Effect)
    (hb : ∀ e ∈ b, p e = false) (ha : ∀ e ∈ a, q e = false) : Precedes p q (a ++ b) := by
  unfold Precedes
  intro i j hi hj hp hq
  by_contra hij
  have hij : j ≤ i := not_lt.mp hij
  by_cases hja : j < a.length
  · rw [List.getElem_append_left hja] at hq
    have := ha _ (List.getElem_mem hja)
    rw [this] at hq
    exact Bool.noConfusion hq
  · have hia : a.length ≤ i := le_trans (not_lt.mp hja) hij
    rw [List.getElem_append_right hia] at hp
    have hlt : i - a.length < b.length := by
      rw [List.length_append] at hi
      omega
    have := hb _ (List.getElem_mem hlt)
    rw [this] at hp
    exact Bool.noConfusion hp

/-! ## C5: `IsValidRequest` -/

/-- C5.  `IsValidRequest(p)` is true exactly when some entry of the active
list is the object `p` (same identity); whatever the request objects hold, a
pointer that is not in the active list is not valid, even when another active
request has an equal value, and even when `p` is in the deferred-destroy list;
the call leaves the manager as it was. -/
theorem IsValidRequest_iff_active (m : FHttpManager) (p : FHttpRequestPtr) :
    ((m.IsValidRequest p).1 = true ↔ ∃ Request ∈ m.Requests, Request = p) ∧
    (∀ (objects : Objects) (q : FHttpRequestPtr), q ∈ m.Requests → objects q = objects p →
      p ∉ m.Requests → (m.IsValidRequest p).1 = false) ∧
    (p ∈ m.PendingRequests → p ∉ m.Requests → (m.IsValidRequest p).1 = false) ∧
    (m.IsValidRequest p).2 = m := by
  have key : p ∉ m.Requests → (m.IsValidRequest p).1 = false := by
    intro hp
    have := (IsValidRequest.loop_eq_true_iff m.Requests p).not.mpr hp
    simpa [IsValidRequest] using this
  refine ⟨?_, ?_, ?_, rfl⟩
  · simp [IsValidRequest, IsValidRequest.loop_eq_true_iff]
  · intro _ _ _ _ hp
    exact key hp
  · intro _ hp
    exact key hp

/-! ## C6: `RemoveRequest` -/

/-- C6.  `RemoveRequest(r)` takes `r` out of the active list and keeps every
other active request in place and in order; the deferred-destroy list gets
exactly one entry more, at its end, which holds `r` with the configured delay
as time left; the delay of a freshly constructed manager is 10; the call
makes no call at all on the request or on the thread (no `FinishRequest`,
no cancellation). -/
theorem RemoveRequest_spec (m : FHttpManager) (r : FHttpRequestPtr) :
    r ∉ (m.RemoveRequest r).1.Requests ∧
    (m.RemoveRequest r).1.Requests = m.Requests.filter (fun q => decide (q ≠ r)) ∧
    (∀ q, q ≠ r → (m.RemoveRequest r).1.Requests.count q = m.Requests.count q) ∧
    (m.RemoveRequest r).1.Requests.Sublist m.Requests ∧
    (m.RemoveRequest r).1.PendingDestroyRequests =
      m.PendingDestroyRequests ++ [⟨m.DeferredDestroyDelay, r⟩] ∧
    (m.RemoveRequest r).1.PendingDestroyRequests.length =
      m.PendingDestroyRequests.length + 1 ∧
    (m.RemoveRequest r).1.DeferredDestroyDelay = m.DeferredDestroyDelay ∧
    FHttpManager.new.DeferredDestroyDelay = 10 ∧
    (m.RemoveRequest r).2 = [] := by
  refine ⟨?_, rfl, ?_, ?_, rfl, ?_, rfl, rfl, rfl⟩
  · simp [RemoveRequest]
  · intro q hq
    simp only [RemoveRequest]
    rw [List.count_filter]
    simpa using hq
  · simp only [RemoveRequest]
    exact List.filter_sublist _
  · simp [RemoveRequest]

end FHttpManager

namespace FHttpManager

/-! ## C1: a completed request in `Tick` -/

/-- C1.  Let `r` be in the active list and among the requests that
`GetCompletedRequests` hands over in a `Tick`.  After that `Tick` has returned:
`r` is not in the active list when it was there once (and in any case it is
there fewer times than before); the deferred-destroy list is the old entries,
aged, followed by new entries, one of which holds `r` with the full
`DeferredDestroyDelay` as time left; and `FinishRequest` was called on `r`. -/
theorem Tick_finishes_completed (m : FHttpManager) (DeltaSeconds : ℚ)
    (Completed : List FHttpRequestPtr) (r : FHttpRequestPtr) (out : FHttpManager × Bool)
    (hactive : r ∈ m.Requests) (hdone : r ∈ Completed)
    (hret : (m.Tick DeltaSeconds Completed).result = some out) :
    (m.Requests.count r = 1 → r ∉ out.1.Requests) ∧
    out.1.Requests.count r < m.Requests.count r ∧
    (∃ fresh : List FRequestPendingDestroy,
      out.1.PendingDestroyRequests =
        m.PendingDestroyRequests.map (fun e => e.aged DeltaSeconds) ++ fresh ∧
      (⟨m.DeferredDestroyDelay, r⟩ : FRequestPendingDestroy) ∈ fresh) ∧
    Effect.FinishRequest r ∈ (m.Tick DeltaSeconds Completed).trace := by
  obtain ⟨fin, -, -, -, hpend, htrace, hfin, hcount, -, -⟩ :=
    Tick_returns m DeltaSeconds Completed out hret
  have h1 : 1 ≤ m.Requests.count r := List.one_le_count_iff.mpr hactive
  have h2 : 1 ≤ Completed.count r := List.one_le_count_iff.mpr hdone
  have hrfin : r ∈ fin := by
    apply List.count_pos_iff.mp
    rw [hfin r]
    exact lt_min h2 h1
  refine ⟨?_, ?_, ?_, ?_⟩
  · intro hone
    apply List.count_eq_zero.mp
    rw [hcount r]
    omega
  · rw [hcount r]
    omega
  · exact ⟨_, hpend, List.mem_map.mpr ⟨r, hrfin, rfl⟩⟩
  · rw [htrace]
    simp only [List.mem_append, List.mem_cons, List.mem_map]
    exact Or.inr (Or.inr ⟨r, hrfin, rfl⟩)

/-- C1 at a concrete manager: requests 7 and 8 active, one deferred-destroy
entry with 4 seconds left, `Tick(1)` in which the worker hands over 8. -/
theorem Tick_finishes_completed_witness :
    (8 ∉ [7]) ∧
    (⟨10, 8⟩ : FRequestPendingDestroy) ∈
      (({ Requests := [7], PendingDestroyRequests := [⟨3, 3⟩, ⟨10, 8⟩],
          DeferredDestroyDelay := 10 } : FHttpManager)).PendingDestroyRequests ∧
    Effect.FinishRequest 8 ∈
      (Tick { Requests := [7, 8], PendingDestroyRequests := [⟨4, 3⟩],
              DeferredDestroyDelay := 10 } 1 [8]).trace := by
  have h := Tick_finishes_completed
    { Requests := [7, 8], PendingDestroyRequests := [⟨4, 3⟩], DeferredDestroyDelay := 10 }
    1 [8] 8
    ({ Requests := [7], PendingDestroyRequests := [⟨3, 3⟩, ⟨10, 8⟩],
       DeferredDestroyDelay := 10 }, true)
    (by decide) (by decide)
    (by norm_num [Tick, TickPendingDestroy, FinishCompleted, TickRequests])
  exact ⟨h.1 (by decide), by simp, h.2.2.2⟩

end FHttpManager

/-! ## Kinds of effects -/

theorem Effect.kinds_of_requestTick (Request : FHttpRequestPtr) (DeltaSeconds : ℚ) :
    (Effect.RequestTick Request DeltaSeconds).isPendingDestroyStep = false ∧
    (Effect.RequestTick Request DeltaSeconds).isGetCompletedRequests = false ∧
    (Effect.RequestTick Request DeltaSeconds).isFinishRequest = false ∧
    (Effect.RequestTick Request DeltaSeconds).invokedOn = some Request :=
  ⟨rfl, rfl, rfl, rfl⟩

theorem Effect.kinds_of_pendingDestroyStep (e : Effect) (h : e.isPendingDestroyStep = true) :
    e.isRequestTick = false ∧ e.isGetCompletedRequests = false ∧
    e.isFinishRequest = false ∧ e.invokedOn = none ∧
    (∀ r, e ≠ Effect.FinishRequest r) ∧ (∀ r, e ≠ Effect.ProcessRequest r) := by
  cases e <;> simp [Effect.isPendingDestroyStep] at h <;>
    simp [Effect.isRequestTick, Effect.isGetCompletedRequests, Effect.isFinishRequest,
      Effect.invokedOn]

namespace FHttpManager

theorem TickRequests_mem (Requests : List FHttpRequestPtr) (DeltaSeconds : ℚ) (e : Effect)
    (h : e ∈ TickRequests Requests DeltaSeconds) :
    ∃ r ∈ Requests, e = Effect.RequestTick r DeltaSeconds := by
  obtain ⟨r, hr, rfl⟩ := List.mem_map.mp h
  exact ⟨r, hr, rfl⟩

/-! ## What a returning `Tick` leaves alone -/

/-- What a `Tick` that returns leaves alone.  It takes out of the active list
only requests that the worker handed over in it: what is left is a sublist of
the old list, and a request not handed over is there as many times as before.
When no handed-over request is active, the active list is the same list, the
calls made on request objects are exactly `Tick(DeltaSeconds)` on each active
request in list order, and the value returned is `true`. -/
theorem Tick_keeps_unreported (m : FHttpManager) (DeltaSeconds : ℚ)
    (Completed : List FHttpRequestPtr) (out : FHttpManager × Bool)
    (hret : (m.Tick DeltaSeconds Completed).result = some out) :
    out.1.Requests.Sublist m.Requests ∧
    (∀ r, r ∉ Completed → out.1.Requests.count r = m.Requests.count r) ∧
    out.2 = true ∧
    ((∀ c ∈ Completed, c ∉ m.Requests) →
      out.1.Requests = m.Requests ∧
      (m.Tick DeltaSeconds Completed).trace.filter (fun e => e.invokedOn.isSome) =
        m.Requests.map (fun r => Effect.RequestTick r DeltaSeconds) ∧
      (∀ r, Effect.ProcessRequest r ∉ (m.Tick DeltaSeconds Completed).trace ∧
        Effect.FinishRequest r ∉ (m.Tick DeltaSeconds Completed).trace)) := by
  obtain ⟨fin, -, htrue, -, -, htrace, hfin, hcount, hsub, hreq⟩ :=
    Tick_returns m DeltaSeconds Completed out hret
  refine ⟨hsub, ?_, htrue, ?_⟩
  · intro r hr
    rw [hcount r, List.count_eq_zero_of_not_mem hr]
    rfl
  · intro hnone
    have hfinnil : fin = [] := by
      apply List.eq_nil_iff_forall_not_mem.mpr
      intro r hr
      have hpos : 0 < fin.count r := List.count_pos_iff.mpr hr
      rw [hfin r] at hpos
      have hc : r ∈ Completed := List.count_pos_iff.mp (lt_of_lt_of_le hpos (min_le_left _ _))
      have ha : r ∈ m.Requests := List.count_pos_iff.mp (lt_of_lt_of_le hpos (min_le_right _ _))
      exact hnone r hc ha
    subst hfinnil
    have hsteps := TickPendingDestroy_trace m.PendingDestroyRequests DeltaSeconds
    refine ⟨?_, ?_, ?_⟩
    · rw [hreq, FinishCompleted_of_not_active _ _ _ _ hnone]
    · rw [htrace]
      simp only [List.map_nil, List.filter_append]
      have h1 : (TickRequests m.Requests DeltaSeconds).filter (fun e => e.invokedOn.isSome) =
          TickRequests m.Requests DeltaSeconds := by
        apply List.filter_eq_self.mpr
        intro e he
        obtain ⟨r, -, rfl⟩ := TickRequests_mem _ _ e he
        rfl
      have h2 : ((TickPendingDestroy m.PendingDestroyRequests DeltaSeconds).1).filter
          (fun e => e.invokedOn.isSome) = [] := by
        apply List.filter_eq_nil_iff.mpr
        intro e he
        rw [(Effect.kinds_of_pendingDestroyStep e (hsteps e he)).2.2.2.1]
        simp
      rw [h1, h2]
      simp [TickRequests, Effect.invokedOn]
    · intro r
      rw [htrace]
      simp only [List.map_nil, List.mem_append, List.mem_cons, List.mem_singleton,
        List.not_mem_nil, or_false]
      constructor
      · rintro ((h | h) | h)
        · obtain ⟨q, -, hq⟩ := TickRequests_mem _ _ _ h
          exact Effect.noConfusion hq
        · exact (Effect.kinds_of_pendingDestroyStep _ (hsteps _ h)).2.2.2.2.2 r rfl
        · exact Effect.noConfusion h
      · rintro ((h | h) | h)
        · obtain ⟨q, -, hq⟩ := TickRequests_mem _ _ _ h
          exact Effect.noConfusion hq
        · exact (Effect.kinds_of_pendingDestroyStep _ (hsteps _ h)).2.2.2.2.1 r rfl
        · exact Effect.noConfusion h

/-- The same at a concrete manager: three requests added with `AddRequest`,
none of them handed over by the worker (which hands over a request 9 that is
not active), one `Tick`. -/
theorem Tick_keeps_unreported_witness :
    (((new.AddRequest 1).AddRequest 2).AddRequest 3).Requests = [1, 2, 3] ∧
    ((((new.AddRequest 1).AddRequest 2).AddRequest 3).Tick (1 / 60) [9]).trace.filter
        (fun e => e.invokedOn.isSome) =
      [Effect.RequestTick 1 (1 / 60), Effect.RequestTick 2 (1 / 60),
        Effect.RequestTick 3 (1 / 60)] := by
  have h := Tick_keeps_unreported (((new.AddRequest 1).AddRequest 2).AddRequest 3) (1 / 60) [9]
    ({ Requests := [1, 2, 3], PendingDestroyRequests := [], DeferredDestroyDelay := 10 }, true)
    (by norm_num [Tick, TickPendingDestroy, FinishCompleted, TickRequests, new, AddRequest])
  have h2 := h.2.2.2 (by simp [new, AddRequest])
  exact ⟨rfl, h2.2.1⟩

end FHttpManager

namespace FHttpManager

/-! ## C9: order of the effects of one `Tick` -/

/-- C9.  In the trace of one `Tick` call: every active request gets its
`Tick(DeltaSeconds)` call; each such call comes before every ageing or erasure
of a deferred-destroy entry, before the call of `GetCompletedRequests` and
before every `FinishRequest`; every ageing or erasure comes before the call of
`GetCompletedRequests` and before every `FinishRequest`; and a request on
which `FinishRequest` is called had its own `Tick(DeltaSeconds)` called
earlier in the same trace. -/
theorem Tick_order (m : FHttpManager) (DeltaSeconds : ℚ) (Completed : List FHttpRequestPtr) :
    (∀ r ∈ m.Requests,
      Effect.RequestTick r DeltaSeconds ∈ (m.Tick DeltaSeconds Completed).trace) ∧
    Precedes Effect.isRequestTick Effect.isPendingDestroyStep
      (m.Tick DeltaSeconds Completed).trace ∧
    Precedes Effect.isRequestTick Effect.isGetCompletedRequests
      (m.Tick DeltaSeconds Completed).trace ∧
    Precedes Effect.isRequestTick Effect.isFinishRequest
      (m.Tick DeltaSeconds Completed).trace ∧
    Precedes Effect.isPendingDestroyStep Effect.isGetCompletedRequests
      (m.Tick DeltaSeconds Completed).trace ∧
    Precedes Effect.isPendingDestroyStep Effect.isFinishRequest
      (m.Tick DeltaSeconds Completed).trace ∧
    (∀ (r : FHttpRequestPtr) (j : Nat) (hj : j < (m.Tick DeltaSeconds Completed).trace.length),
      (m.Tick DeltaSeconds Completed).trace[j] = Effect.FinishRequest r →
      ∃ (i : Nat) (hi : i < (m.Tick DeltaSeconds Completed).trace.length),
        i < j ∧ (m.Tick DeltaSeconds Completed).trace[i] = Effect.RequestTick r DeltaSeconds) := by
  obtain ⟨drained, htrace, hdrained⟩ := Tick_trace_shape m DeltaSeconds Completed
  have hsteps := TickPendingDestroy_trace m.PendingDestroyRequests DeltaSeconds
  -- kinds of the effects of the three segments
  have k1 : ∀ e ∈ TickRequests m.Requests DeltaSeconds,
      e.isRequestTick = true ∧ e.isPendingDestroyStep = false ∧
      e.isGetCompletedRequests = false ∧ e.isFinishRequest = false := by
    intro e he
    obtain ⟨r, -, rfl⟩ := TickRequests_mem _ _ e he
    exact ⟨rfl, rfl, rfl, rfl⟩
  have k2 : ∀ e ∈ (TickPendingDestroy m.PendingDestroyRequests DeltaSeconds).1,
      e.isRequestTick = false ∧ e.isGetCompletedRequests = false ∧
      e.isFinishRequest = false := by
    intro e he
    have h := Effect.kinds_of_pendingDestroyStep e (hsteps e he)
    exact ⟨h.1, h.2.1, h.2.2.1⟩
  have k3 : ∀ e ∈ drained, e.isRequestTick = false ∧ e.isPendingDestroyStep = false := by
    intro e he
    rcases hdrained e he with rfl | ⟨r, rfl, -⟩
    · exact ⟨rfl, rfl⟩
    · exact ⟨rfl, rfl⟩
  have k23 : ∀ e ∈ (TickPendingDestroy m.PendingDestroyRequests DeltaSeconds).1 ++ drained,
      e.isRequestTick = false := by
    intro e he
    rcases List.mem_append.mp he with h | h
    · exact (k2 e h).1
    · exact (k3 e h).1
  have k12 : ∀ e ∈ TickRequests m.Requests DeltaSeconds ++
      (TickPendingDestroy m.PendingDestroyRequests DeltaSeconds).1,
      e.isGetCompletedRequests = false ∧ e.isFinishRequest = false := by
    intro e he
    rcases List.mem_append.mp he with h | h
    · exact ⟨(k1 e h).2.2.1, (k1 e h).2.2.2⟩
    · exact ⟨(k2 e h).2.1, (k2 e h).2.2⟩
  have hticked : ∀ r ∈ m.Requests,
      Effect.RequestTick r DeltaSeconds ∈ TickRequests m.Requests DeltaSeconds :=
    fun r hr => List.mem_map.mpr ⟨r, hr, rfl⟩
  rw [htrace]
  refine ⟨?_, ?_, ?_, ?_, ?_, ?_, ?_⟩
  · intro r hr
    exact List.mem_append_left _ (List.mem_append_left _ (hticked r hr))
  · rw [List.append_assoc]
    exact Precedes_append _ _ _ _ k23 (fun e he => (k1 e he).2.1)
  · rw [List.append_assoc]
    exact Precedes_append _ _ _ _ k23 (fun e he => (k1 e he).2.2.1)
  · rw [List.append_assoc]
    exact Precedes_append _ _ _ _ k23 (fun e he => (k1 e he).2.2.2)
  · exact Precedes_append _ _ _ _ (fun e he => (k3 e he).2) (fun e he => (k12 e he).1)
  · exact Precedes_append _ _ _ _ (fun e he => (k3 e he).2) (fun e he => (k12 e he).2)
  · intro r j hj hfin
    have hjge : (TickRequests m.Requests DeltaSeconds ++
        (TickPendingDestroy m.PendingDestroyRequests DeltaSeconds).1).length ≤ j := by
      by_contra hlt
      have hlt := not_le.mp hlt
      rw [List.getElem_append_left hlt] at hfin
      have := (k12 _ (List.getElem_mem hlt)).2
      rw [hfin] at this
      exact Bool.noConfusion this
    have hmem : Effect.FinishRequest r ∈ drained := by
      rw [List.getElem_append_right hjge] at hfin
      rw [← hfin]
      exact List.getElem_mem _
    have hactive : r ∈ m.Requests := by
      rcases hdrained _ hmem with h | ⟨q, hq, hqa⟩
      · exact Effect.noConfusion h
      · have : r = q := by
          injection hq
        rw [this]
        exact hqa
    obtain ⟨i, hi, hget⟩ := List.mem_iff_getElem.mp (hticked r hactive)
    have hlen : i < (TickRequests m.Requests DeltaSeconds ++
        (TickPendingDestroy m.PendingDestroyRequests DeltaSeconds).1).length := by
      rw [List.length_append]
      omega
    refine ⟨i, ?_, ?_, ?_⟩
    · rw [List.length_append]
      omega
    · omega
    · rw [List.getElem_append_left hlen, List.getElem_append_left hi]
      exact hget

end FHttpManager

namespace FHttpManager

/-! ## C2: how often `FinishRequest` is called -/

theorem Tick_finish_count (m : FHttpManager) (DeltaSeconds : ℚ)
    (Completed : List FHttpRequestPtr) (out : FHttpManager × Bool) (r : FHttpRequestPtr)
    (hret : (m.Tick DeltaSeconds Completed).result = some out) :
    (m.Tick DeltaSeconds Completed).trace.count (Effect.FinishRequest r) =
      min (Completed.count r) (m.Requests.count r) := by
  obtain ⟨fin, -, -, -, -, htrace, hfin, -, -, -⟩ :=
    Tick_returns m DeltaSeconds Completed out hret
  have h1 : (TickRequests m.Requests DeltaSeconds).count (Effect.FinishRequest r) = 0 := by
    apply List.count_eq_zero.mpr
    intro h
    obtain ⟨q, -, hq⟩ := TickRequests_mem _ _ _ h
    exact Effect.noConfusion hq
  have h2 : ((TickPendingDestroy m.PendingDestroyRequests DeltaSeconds).1).count
      (Effect.FinishRequest r) = 0 := by
    apply List.count_eq_zero.mpr
    intro h
    exact (Effect.kinds_of_pendingDestroyStep _
      (TickPendingDestroy_trace _ _ _ h)).2.2.2.2.1 r rfl
  have h3 : (fin.map Effect.FinishRequest).count (Effect.FinishRequest r) = fin.count r :=
    List.count_map_of_injective fin Effect.FinishRequest
      (fun a b hab => by injection hab) r
  have h4 : Effect.FinishRequest r ≠ Effect.GetCompletedRequests := fun h =>
    Effect.noConfusion h
  rw [htrace, List.count_append, List.count_append, List.count_cons_of_ne h4, h1, h2, h3,
    hfin r]
  omega

theorem Ticks_not_active (r : FHttpRequestPtr) (ticks : List (ℚ × List FHttpRequestPtr)) :
    ∀ (m after : FHttpManager), r ∉ m.Requests → (Ticks m ticks).2 = some after →
      (∀ t ∈ (Ticks m ticks).1, t.count (Effect.FinishRequest r) = 0) ∧
      (Ticks m ticks).1.length = ticks.length := by
  induction ticks with
  | nil =>
    intro m after _ _
    simp [Ticks]
  | cons t rest ih =>
    intro m after hr hret
    unfold Ticks at hret ⊢
    cases hres : (m.Tick t.1 t.2).result with
    | none => simp [hres] at hret
    | some out =>
      simp only [hres] at hret ⊢
      have hzero : m.Requests.count r = 0 := List.count_eq_zero_of_not_mem hr
      have hcount := Tick_finish_count m t.1 t.2 out r hres
      obtain ⟨fin, -, -, -, -, -, -, hleft, -, -⟩ := Tick_returns m t.1 t.2 out hres
      have hr2 : r ∉ out.1.Requests := by
        apply List.count_eq_zero.mp
        rw [hleft r, hzero]
        omega
      obtain ⟨ih1, ih2⟩ := ih out.1 after hr2 hret
      refine ⟨?_, by simp [ih2]⟩
      intro tr htr
      rcases List.mem_cons.mp htr with rfl | htr
      · rw [hcount, hzero]
        omega
      · exact ih1 tr htr

theorem Ticks_active_once (r : FHttpRequestPtr) (ticks : List (ℚ × List FHttpRequestPtr)) :
    ∀ (m after : FHttpManager), m.Requests.count r = 1 → (Ticks m ticks).2 = some after →
      (Ticks m ticks).1.length = ticks.length ∧
      (∀ (j : Nat) (hj : j < (Ticks m ticks).1.length),
        ((Ticks m ticks).1[j]).count (Effect.FinishRequest r) =
          if j = ticks.findIdx (fun t => decide (r ∈ t.2)) then 1 else 0) ∧
      ((∃ t ∈ ticks, r ∈ t.2) →
        (Ticks m ticks).1.flatten.count (Effect.FinishRequest r) = 1) := by
  induction ticks with
  | nil =>
    intro m after _ _
    simp [Ticks]
  | cons t rest ih =>
    intro m after hone hret
    unfold Ticks at hret ⊢
    cases hres : (m.Tick t.1 t.2).result with
    | none => simp [hres] at hret
    | some out =>
      simp only [hres] at hret ⊢
      have hcount := Tick_finish_count m t.1 t.2 out r hres
      obtain ⟨fin, -, -, -, -, -, -, hleft, -, -⟩ := Tick_returns m t.1 t.2 out hres
      by_cases hrt : r ∈ t.2
      · -- the first `Tick` that sees `r` completed
        have hc : 1 ≤ t.2.count r := List.one_le_count_iff.mpr hrt
        have hr2 : r ∉ out.1.Requests := by
          apply List.count_eq_zero.mp
          rw [hleft r]
          omega
        obtain ⟨z1, z2⟩ := Ticks_not_active r rest out.1 after hr2 hret
        have hidx : (t :: rest).findIdx (fun t => decide (r ∈ t.2)) = 0 := by
          simp [List.findIdx_cons, hrt]
        have hhead : (m.Tick t.1 t.2).trace.count (Effect.FinishRequest r) = 1 := by
          rw [hcount, hone]
          omega
        refine ⟨by simp [z2], ?_, ?_⟩
        · intro j hj
          rw [hidx]
          cases j with
          | zero => simpa using hhead
          | succ j =>
            simp only [List.getElem_cons_succ]
            rw [z1 _ (List.getElem_mem _)]
            simp
        · intro _
          rw [List.flatten_cons, List.count_append, hhead, List.count_flatten]
          have : (List.map (List.count (Effect.FinishRequest r)) (Ticks out.1 rest).1).sum = 0 := by
            apply List.sum_eq_zero
            intro x hx
            obtain ⟨tr, htr, rfl⟩ := List.mem_map.mp hx
            exact z1 tr htr
          rw [this]
      · have hc : t.2.count r = 0 := List.count_eq_zero_of_not_mem hrt
        have hone2 : out.1.Requests.count r = 1 := by
          rw [hleft r, hc, hone]
        obtain ⟨i1, i2, i3⟩ := ih out.1 after hone2 hret
        have hidx : (t :: rest).findIdx (fun t => decide (r ∈ t.2)) =
            rest.findIdx (fun t => decide (r ∈ t.2)) + 1 := by
          simp [List.findIdx_cons, hrt]
        have hhead : (m.Tick t.1 t.2).trace.count (Effect.FinishRequest r) = 0 := by
          rw [hcount, hc]
          omega
        refine ⟨by simp [i1], ?_, ?_⟩
        · intro j hj
          rw [hidx]
          cases j with
          | zero => simpa using hhead
          | succ j =>
            simp only [List.getElem_cons_succ]
            rw [i2 j (by simpa using hj)]
            simp
        · rintro ⟨x, hx, hrx⟩
          have hex : ∃ t ∈ rest, r ∈ t.2 := by
            rcases List.mem_cons.mp hx with rfl | hx
            · exact absurd hrx hrt
            · exact ⟨x, hx, hrx⟩
          rw [List.flatten_cons, List.count_append, hhead, i3 hex]

end FHttpManager

namespace FHttpManager

/-- C2 (as amended).  Let `r` be added with `AddThreadedRequest` while it is
not in the active list, and let `Tick` calls follow, all of which return.
Then `FinishRequest` is called on `r` in the first `Tick` in which the worker
hands `r` over, once, and in no other `Tick` of the sequence, however often
`r` is handed over; when `r` is handed over at all, the calls of
`FinishRequest` on `r` over the whole sequence number exactly one. -/
theorem AddThreadedRequest_finished_once (m : FHttpManager) (r : FHttpRequestPtr)
    (ticks : List (ℚ × List FHttpRequestPtr)) (after : FHttpManager)
    (hnew : r ∉ m.Requests)
    (hret : (Ticks (m.AddThreadedRequest r).1 ticks).2 = some after) :
    (Ticks (m.AddThreadedRequest r).1 ticks).1.length = ticks.length ∧
    (∀ (j : Nat) (hj : j < (Ticks (m.AddThreadedRequest r).1 ticks).1.length),
      ((Ticks (m.AddThreadedRequest r).1 ticks).1[j]).count (Effect.FinishRequest r) =
        if j = ticks.findIdx (fun t => decide (r ∈ t.2)) then 1 else 0) ∧
    ((∃ t ∈ ticks, r ∈ t.2) →
      (Ticks (m.AddThreadedRequest r).1 ticks).1.flatten.count (Effect.FinishRequest r) = 1) := by
  have hone : (m.AddThreadedRequest r).1.Requests.count r = 1 := by
    simp [AddThreadedRequest, AddRequest, List.count_eq_zero_of_not_mem hnew]
  exact Ticks_active_once r ticks _ after hone hret

/-- C2 (as amended) at a concrete run: request 1 is added to the new manager,
the worker hands it over twice in the second `Tick` and once more in the
third. -/
theorem AddThreadedRequest_finished_once_witness :
    (Ticks (new.AddThreadedRequest 1).1 [(1, []), (1, [1, 1]), (1, [1])]).1.flatten.count
      (Effect.FinishRequest 1) = 1 := by
  have h := AddThreadedRequest_finished_once new 1 [(1, []), (1, [1, 1]), (1, [1])]
    { Requests := [], PendingDestroyRequests := [⟨9, 1⟩], DeferredDestroyDelay := 10 }
    (by simp [new])
    (by norm_num [Ticks, Tick, TickPendingDestroy, FinishCompleted, TickRequests, new,
      AddThreadedRequest, AddRequest])
  exact h.2.2 ⟨(1, [1]), by simp, by simp⟩

/-- C2, counterexample.  Request 1 is added twice with `AddThreadedRequest`
(the second time while it is active); the worker hands it over in two `Tick`
calls, both of which return; `FinishRequest` is called on it in both, twice
over the sequence. -/
theorem AddThreadedRequest_twice_finished_twice :
    (Ticks ((new.AddThreadedRequest 1).1.AddThreadedRequest 1).1 [(0, [1]), (0, [1])]).2 =
      some { Requests := [], PendingDestroyRequests := [⟨10, 1⟩, ⟨10, 1⟩],
             DeferredDestroyDelay := 10 } ∧
    (Ticks ((new.AddThreadedRequest 1).1.AddThreadedRequest 1).1 [(0, [1]), (0, [1])]).1 =
      [[Effect.RequestTick 1 0, Effect.RequestTick 1 0, Effect.GetCompletedRequests,
          Effect.FinishRequest 1],
        [Effect.RequestTick 1 0, Effect.AgePendingDestroy 1 10, Effect.GetCompletedRequests,
          Effect.FinishRequest 1]] ∧
    (Ticks ((new.AddThreadedRequest 1).1.AddThreadedRequest 1).1
      [(0, [1]), (0, [1])]).1.flatten.count (Effect.FinishRequest 1) = 2 := by
  have h : (Ticks ((new.AddThreadedRequest 1).1.AddThreadedRequest 1).1 [(0, [1]), (0, [1])]) =
      ([[Effect.RequestTick 1 0, Effect.RequestTick 1 0, Effect.GetCompletedRequests,
          Effect.FinishRequest 1],
        [Effect.RequestTick 1 0, Effect.AgePendingDestroy 1 10, Effect.GetCompletedRequests,
          Effect.FinishRequest 1]],
       some { Requests := [], PendingDestroyRequests := [⟨10, 1⟩, ⟨10, 1⟩],
              DeferredDestroyDelay := 10 }) := by
    norm_num [Ticks, Tick, TickPendingDestroy, FinishCompleted, TickRequests, new,
      AddThreadedRequest, AddRequest]
  rw [h]
  refine ⟨rfl, rfl, ?_⟩
  simp [List.count_cons]

end FHttpManager

namespace FHttpManager

/-! ## C3: a request is in one list at most -/

theorem SingleOwner_AddRequest (m : FHttpManager) (r : FHttpRequestPtr) (h : m.SingleOwner)
    (h1 : r ∉ m.Requests) (h2 : r ∉ m.PendingRequests) : (m.AddRequest r).SingleOwner := by
  obtain ⟨hnd, hdis⟩ := h
  refine ⟨?_, ?_⟩
  · simp only [AddRequest]
    exact List.Nodup.append hnd (List.nodup_singleton r) (by simpa using h1)
  · intro q hq
    simp only [AddRequest, List.mem_append, List.mem_singleton] at hq
    rcases hq with hq | rfl
    · exact hdis q hq
    · exact h2

theorem SingleOwner_RemoveRequest (m : FHttpManager) (r : FHttpRequestPtr)
    (h : m.SingleOwner) : (m.RemoveRequest r).1.SingleOwner := by
  obtain ⟨hnd, hdis⟩ := h
  refine ⟨?_, ?_⟩
  · simp only [RemoveRequest]
    exact hnd.filter _
  · intro q hq
    simp only [RemoveRequest, List.mem_filter, decide_eq_true_eq] at hq
    have := hdis q hq.1
    simp only [PendingRequests] at this
    simp only [RemoveRequest, PendingRequests, List.map_append, List.map_cons, List.map_nil,
      List.mem_append, List.mem_singleton, not_or]
    exact ⟨this, hq.2⟩

theorem SingleOwner_Tick (m : FHttpManager) (DeltaSeconds : ℚ)
    (Completed : List FHttpRequestPtr) (out : FHttpManager × Bool) (h : m.SingleOwner)
    (hret : (m.Tick DeltaSeconds Completed).result = some out) : out.1.SingleOwner := by
  obtain ⟨hnd, hdis⟩ := h
  obtain ⟨fin, -, -, -, hpend, -, hfin, hcount, hsub, -⟩ :=
    Tick_returns m DeltaSeconds Completed out hret
  refine ⟨hnd.sublist hsub, ?_⟩
  intro q hq
  have hqm : q ∈ m.Requests := hsub.subset hq
  have hpr : out.1.PendingRequests = m.PendingRequests ++ fin := by
    simp [PendingRequests, hpend, List.map_map, Function.comp_def,
      FRequestPendingDestroy.aged]
  rw [hpr, List.mem_append, not_or]
  refine ⟨hdis q hqm, ?_⟩
  intro hqf
  have h1 : 1 ≤ fin.count q := List.one_le_count_iff.mpr hqf
  have h2 : 1 ≤ out.1.Requests.count q := List.one_le_count_iff.mpr hq
  have h3 : m.Requests.count q ≤ 1 := List.nodup_iff_count_le_one.mp hnd q
  rw [hfin q] at h1
  rw [hcount q] at h2
  have h4 : 1 ≤ Completed.count q := le_trans h1 (min_le_left _ _)
  omega

theorem SingleOwner_calls (cs : List Call) :
    ∀ (m after : FHttpManager), m.SingleOwner → AddsUntracked m cs →
      calls m cs = some after → after.SingleOwner := by
  induction cs with
  | nil =>
    intro m after h _ hret
    simp only [calls, Option.some.injEq] at hret
    exact hret ▸ h
  | cons c rest ih =>
    intro m after h hadds hret
    unfold AddsUntracked at hadds
    unfold calls at hret
    obtain ⟨hfresh, hrest⟩ := hadds
    cases hcall : m.call c with
    | none => simp [hcall] at hret
    | some next =>
      simp only [hcall] at hret hrest
      refine ih next after ?_ hrest hret
      cases c with
      | AddRequest r =>
        simp only [call, Option.some.injEq] at hcall
        exact hcall ▸ SingleOwner_AddRequest m r h hfresh.1 hfresh.2
      | AddThreadedRequest r =>
        simp only [call, AddThreadedRequest, Option.some.injEq] at hcall
        exact hcall ▸ SingleOwner_AddRequest m r h hfresh.1 hfresh.2
      | RemoveRequest r =>
        simp only [call, Option.some.injEq] at hcall
        exact hcall ▸ SingleOwner_RemoveRequest m r h
      | CancelThreadedRequest r =>
        simp only [call, CancelThreadedRequest, Option.some.injEq] at hcall
        exact hcall ▸ h
      | Tick d done =>
        simp only [call, Option.map_eq_some'] at hcall
        obtain ⟨out, hout, rfl⟩ := hcall
        exact SingleOwner_Tick m d done out h hout

/-- C3 (as amended).  Start from the new manager and make any sequence of
`AddRequest`, `AddThreadedRequest`, `RemoveRequest`, `CancelThreadedRequest`
and `Tick` calls, all of which return, in which a request is added only while
it is in neither list of the manager.  Then in the state reached no request is
at the same time in the active list and in the deferred-destroy list. -/
theorem single_owner_of_adds_untracked (cs : List Call) (after : FHttpManager)
    (hadds : AddsUntracked new cs) (hret : calls new cs = some after) :
    ∀ r, ¬ (r ∈ after.Requests ∧ r ∈ after.PendingRequests) := by
  have hnew : new.SingleOwner := by
    refine ⟨List.nodup_nil, ?_⟩
    intro r hr
    simp [new] at hr
  have h := SingleOwner_calls cs new after hnew hadds hret
  intro r hr
  exact h.2 r hr.1 hr.2

/-- C3 (as amended) at a concrete run with every kind of call in it: in the
state reached request 1 is in the deferred-destroy list only and request 3 in
the active list only. -/
theorem single_owner_of_adds_untracked_witness :
    calls new
        [Call.AddRequest 1, Call.AddThreadedRequest 2, Call.Tick 1 [2], Call.RemoveRequest 1,
          Call.CancelThreadedRequest 2, Call.Tick 1 [], Call.AddRequest 3] =
      some { Requests := [3], PendingDestroyRequests := [⟨9, 2⟩, ⟨9, 1⟩],
             DeferredDestroyDelay := 10 } ∧
    ¬ ((1 : FHttpRequestPtr) ∈ ([3] : List FHttpRequestPtr) ∧
      (1 : FHttpRequestPtr) ∈
        (({ Requests := [3], PendingDestroyRequests := [⟨9, 2⟩, ⟨9, 1⟩],
            DeferredDestroyDelay := 10 } : FHttpManager)).PendingRequests) ∧
    ¬ ((3 : FHttpRequestPtr) ∈ ([3] : List FHttpRequestPtr) ∧
      (3 : FHttpRequestPtr) ∈
        (({ Requests := [3], PendingDestroyRequests := [⟨9, 2⟩, ⟨9, 1⟩],
            DeferredDestroyDelay := 10 } : FHttpManager)).PendingRequests) := by
  have hrun : calls new
      [Call.AddRequest 1, Call.AddThreadedRequest 2, Call.Tick 1 [2], Call.RemoveRequest 1,
        Call.CancelThreadedRequest 2, Call.Tick 1 [], Call.AddRequest 3] =
      some { Requests := [3], PendingDestroyRequests := [⟨9, 2⟩, ⟨9, 1⟩],
             DeferredDestroyDelay := 10 } := by
    norm_num [calls, call, Tick, TickPendingDestroy, FinishCompleted, TickRequests,
      new, AddThreadedRequest, AddRequest, RemoveRequest, CancelThreadedRequest]
  have h := single_owner_of_adds_untracked
    [Call.AddRequest 1, Call.AddThreadedRequest 2, Call.Tick 1 [2], Call.RemoveRequest 1,
      Call.CancelThreadedRequest 2, Call.Tick 1 [], Call.AddRequest 3]
    { Requests := [3], PendingDestroyRequests := [⟨9, 2⟩, ⟨9, 1⟩], DeferredDestroyDelay := 10 }
    (by norm_num [AddsUntracked, call, Tick, TickPendingDestroy, FinishCompleted, TickRequests,
      new, AddThreadedRequest, AddRequest, RemoveRequest, CancelThreadedRequest,
      PendingRequests])
    hrun
  exact ⟨hrun, h 1, h 3⟩

/-- C3, counterexample.  From the new manager, `AddRequest(1)`,
`RemoveRequest(1)`, `AddRequest(1)` leaves request 1 in the active list and in
the deferred-destroy list; so does `AddThreadedRequest(1)` twice followed by a
`Tick` in which the worker hands request 1 over once. -/
theorem single_owner_fails_on_readd :
    (calls new [Call.AddRequest 1, Call.RemoveRequest 1, Call.AddRequest 1] =
        some { Requests := [1], PendingDestroyRequests := [⟨10, 1⟩],
               DeferredDestroyDelay := 10 } ∧
      (1 : FHttpRequestPtr) ∈ ([1] : List FHttpRequestPtr) ∧
      (1 : FHttpRequestPtr) ∈
        (({ Requests := [1], PendingDestroyRequests := [⟨10, 1⟩],
            DeferredDestroyDelay := 10 } : FHttpManager)).PendingRequests) ∧
    (calls new [Call.AddThreadedRequest 1, Call.AddThreadedRequest 1, Call.Tick 0 [1]] =
        some { Requests := [1], PendingDestroyRequests := [⟨10, 1⟩],
               DeferredDestroyDelay := 10 }) := by
  refine ⟨⟨?_, by simp, by simp [PendingRequests]⟩, ?_⟩
  · norm_num [calls, call, new, AddRequest, RemoveRequest]
  · norm_num [calls, call, Tick, TickPendingDestroy, FinishCompleted, TickRequests,
      new, AddThreadedRequest, AddRequest]

end FHttpManager

namespace FHttpManager

/-! ## C4: ageing of the deferred-destroy entries -/

/-- A `Tick` that returns erases no deferred-destroy entry: the entry at
position `i` stays at position `i`, aged, with time left. -/
theorem Tick_retains_entry (m : FHttpManager) (DeltaSeconds : ℚ)
    (Completed : List FHttpRequestPtr) (out : FHttpManager × Bool) (i : Nat)
    (e : FRequestPendingDestroy)
    (hret : (m.Tick DeltaSeconds Completed).result = some out)
    (he : m.PendingDestroyRequests[i]? = some e) :
    out.1.PendingDestroyRequests[i]? = some (e.aged DeltaSeconds) ∧
    0 < e.TimeLeft - DeltaSeconds := by
  obtain ⟨fin, hpos, -, -, hpend, -, -, -, -, -⟩ :=
    Tick_returns m DeltaSeconds Completed out hret
  obtain ⟨hi, hget⟩ := List.getElem?_eq_some_iff.mp he
  refine ⟨?_, hpos e (List.getElem?_mem he)⟩
  rw [hpend, List.getElem?_append_left (by simpa using hi), List.getElem?_map, he]
  rfl

/-- Over `Tick` calls that all return, a deferred-destroy entry stays in the
list, with the deltas taken off its time left, and the deltas accumulated stay
below the time it had. -/
theorem Ticks_retain_entry (ticks : List (ℚ × List FHttpRequestPtr)) :
    ∀ (m after : FHttpManager) (i : Nat) (e : FRequestPendingDestroy),
      (Ticks m ticks).2 = some after → m.PendingDestroyRequests[i]? = some e →
      after.PendingDestroyRequests[i]? =
        some ⟨e.TimeLeft - (ticks.map Prod.fst).sum, e.HttpRequest⟩ ∧
      (ticks ≠ [] → (ticks.map Prod.fst).sum < e.TimeLeft) := by
  induction ticks with
  | nil =>
    intro m after i e hret he
    simp only [Ticks, Option.some.injEq] at hret
    subst hret
    simp [he]
  | cons t rest ih =>
    intro m after i e hret he
    unfold Ticks at hret
    cases hres : (m.Tick t.1 t.2).result with
    | none => simp [hres] at hret
    | some out =>
      simp only [hres] at hret
      obtain ⟨h1, h2⟩ := Tick_retains_entry m t.1 t.2 out i e hres he
      obtain ⟨h3, h4⟩ := ih out.1 after i (e.aged t.1) hret h1
      simp only [FRequestPendingDestroy.aged] at h3 h4
      refine ⟨?_, ?_⟩
      · rw [h3]
        simp only [List.map_cons, List.sum_cons]
        congr 2
        ring
      · intro _
        simp only [List.map_cons, List.sum_cons]
        by_cases hrest : rest = []
        · subst hrest
          simp only [List.map_nil, List.sum_nil, add_zero]
          linarith
        · have := h4 hrest
          linarith

/-- Once the deltas accumulated reach the time left of a deferred-destroy
entry, the `Tick` calls have not all returned: the behaviour of one of them
is undefined. -/
theorem Ticks_undefined_of_expired (ticks : List (ℚ × List FHttpRequestPtr))
    (m : FHttpManager) (i : Nat) (e : FRequestPendingDestroy)
    (he : m.PendingDestroyRequests[i]? = some e) (hne : ticks ≠ [])
    (hsum : e.TimeLeft ≤ (ticks.map Prod.fst).sum) : (Ticks m ticks).2 = none := by
  cases h : (Ticks m ticks).2 with
  | none => rfl
  | some after =>
    have := (Ticks_retain_entry ticks m after i e h he).2 hne
    exact absurd hsum (not_le.mpr this)

/-- C4, the code at the failing input.  Request 1 is added to the new manager
and removed, which creates its deferred-destroy entry with 10 seconds left.
`Tick(4)` returns and leaves the entry with 6 seconds.  In `Tick(6)`, where
the deltas accumulated reach 10, the entry is aged to 0 and
`PendingDestroyRequests.erase(itr)` is called; the loop then goes on with the
invalidated iterator, and the call has no defined result. -/
theorem Tick_at_expiry_undefined :
    ((new.AddRequest 1).RemoveRequest 1).1 =
      { Requests := [], PendingDestroyRequests := [⟨10, 1⟩], DeferredDestroyDelay := 10 } ∧
    (((new.AddRequest 1).RemoveRequest 1).1.Tick 4 []).result =
      some ({ Requests := [], PendingDestroyRequests := [⟨6, 1⟩],
              DeferredDestroyDelay := 10 }, true) ∧
    Tick { Requests := [], PendingDestroyRequests := [⟨6, 1⟩], DeferredDestroyDelay := 10 }
        6 [] =
      { trace := [Effect.AgePendingDestroy 1 0, Effect.ErasePendingDestroy 1],
        result := none } := by
  refine ⟨?_, ?_, ?_⟩
  · simp [new, AddRequest, RemoveRequest]
  · norm_num [new, AddRequest, RemoveRequest, Tick, TickPendingDestroy, FinishCompleted,
      TickRequests]
  · norm_num [Tick, TickPendingDestroy, TickRequests]

end FHttpManager

namespace FHttpManager

/-! ## C7: the shutdown block of `Flush` -/

theorem FlushShutdown.loop_objects (Requests : List FHttpRequestPtr) :
    ∀ (objects : Objects) (r : FHttpRequestPtr),
      ((FlushShutdown.loop Requests objects).1 r).Verb = (objects r).Verb ∧
      ((FlushShutdown.loop Requests objects).1 r).URL = (objects r).URL ∧
      ((FlushShutdown.loop Requests objects).1 r).Status = (objects r).Status ∧
      (r ∈ Requests ∨ ((objects r).OnProcessRequestComplete = none ∧
          (objects r).OnRequestProgress = none) →
        ((FlushShutdown.loop Requests objects).1 r).OnProcessRequestComplete = none ∧
        ((FlushShutdown.loop Requests objects).1 r).OnRequestProgress = none) ∧
      (r ∉ Requests → (FlushShutdown.loop Requests objects).1 r = objects r) := by
  induction Requests with
  | nil =>
    intro objects r
    simp [FlushShutdown.loop]
  | cons q rest ih =>
    intro objects r
    simp only [FlushShutdown.loop]
    obtain ⟨h1, h2, h3, h4, h5⟩ := ih (Function.update objects q
      { objects q with OnProcessRequestComplete := none, OnRequestProgress := none }) r
    by_cases hrq : r = q
    · subst hrq
      have hc := h4 (Or.inr (by simp))
      simp only [Function.update_same] at h1 h2 h3
      refine ⟨h1, h2, h3, fun _ => hc, ?_⟩
      intro hnot
      exact absurd (List.mem_cons_self _ _) hnot
    · simp only [Function.update_noteq hrq] at h1 h2 h3 h4 h5
      refine ⟨h1, h2, h3, ?_, ?_⟩
      · rintro (hmem | hnone)
        · rcases List.mem_cons.mp hmem with h | h
          · exact absurd h hrq
          · exact h4 (Or.inl h)
        · exact h4 (Or.inr hnone)
      · intro hnot
        exact h5 (fun h => hnot (List.mem_cons_of_mem _ h))

theorem FlushShutdown.loop_trace (Requests : List FHttpRequestPtr) :
    ∀ (objects : Objects),
      (∀ r ∈ Requests,
        Effect.ClearOnProcessRequestComplete r ∈ (FlushShutdown.loop Requests objects).2 ∧
        Effect.ClearOnRequestProgress r ∈ (FlushShutdown.loop Requests objects).2) ∧
      (∀ e ∈ (FlushShutdown.loop Requests objects).2, e.isTicking = false) := by
  induction Requests with
  | nil =>
    intro objects
    simp [FlushShutdown.loop]
  | cons q rest ih =>
    intro objects
    simp only [FlushShutdown.loop]
    obtain ⟨h1, h2⟩ := ih (Function.update objects q
      { objects q with OnProcessRequestComplete := none, OnRequestProgress := none })
    refine ⟨?_, ?_⟩
    · intro r hr
      rcases List.mem_cons.mp hr with rfl | hr
      · simp
      · have := h1 r hr
        simp [this.1, this.2]
    · intro e he
      simp only [List.mem_cons] at he
      rcases he with rfl | rfl | rfl | he
      · rfl
      · rfl
      · rfl
      · exact h2 e he

theorem Tick_trace_ticking (m : FHttpManager) (DeltaSeconds : ℚ)
    (Completed : List FHttpRequestPtr) :
    ∀ e ∈ (m.Tick DeltaSeconds Completed).trace,
      e.isTicking = true ∧ e.isClearDelegate = false := by
  obtain ⟨drained, htrace, hdrained⟩ := Tick_trace_shape m DeltaSeconds Completed
  rw [htrace]
  intro e he
  simp only [List.mem_append] at he
  rcases he with (he | he) | he
  · obtain ⟨r, -, rfl⟩ := TickRequests_mem _ _ e he
    exact ⟨rfl, rfl⟩
  · have := TickPendingDestroy_trace _ _ e he
    cases e <;> simp [Effect.isPendingDestroyStep] at this <;> exact ⟨rfl, rfl⟩
  · rcases hdrained e he with rfl | ⟨r, rfl, -⟩
    · exact ⟨rfl, rfl⟩
    · exact ⟨rfl, rfl⟩

theorem FlushLoop_trace_ticking (env : Environment) (fuel : Nat) :
    ∀ (k : Nat) (LastTime : Int) (m : FHttpManager),
      ∀ e ∈ (FlushLoop env fuel k LastTime m).trace,
        e.isTicking = true ∧ e.isClearDelegate = false := by
  induction fuel with
  | zero =>
    intro k LastTime m e he
    simp [FlushLoop] at he
  | succ fuel ih =>
    intro k LastTime m e he
    unfold FlushLoop at he
    by_cases hlen : 0 < m.Requests.length
    · simp only [hlen, if_true] at he
      cases hres : (m.Tick (FlushDeltaSeconds env (env.now (k + 1)) LastTime)
          (env.Completed k)).result with
      | none =>
        simp only [hres, List.mem_cons] at he
        rcases he with rfl | he
        · exact ⟨rfl, rfl⟩
        · exact Tick_trace_ticking _ _ _ e he
      | some out =>
        simp only [hres, List.mem_cons, List.mem_append] at he
        rcases he with ((rfl | he) | he) | he
        · exact ⟨rfl, rfl⟩
        · exact Tick_trace_ticking _ _ _ e he
        · by_cases h2 : 0 < out.1.Requests.length
          · simp only [h2, if_true, List.mem_singleton] at he
            subst he
            exact ⟨rfl, rfl⟩
          · simp [h2] at he
        · exact ih _ _ _ e he
    · simp [hlen] at he

end FHttpManager

namespace FHttpManager

/-- C7.  `Flush(true)`: when the loop is entered, hence before the first call
of `Tick`, both delegate slots of every request in the active list are empty;
the two assignments are in the trace for every active request, and every
assignment to a delegate slot comes before the first `Tick` call and anything
that the ticking does.  `Flush(false)`: the request objects are as they were
and no delegate slot is assigned at all. -/
theorem Flush_shutdown_clears_delegates (m : FHttpManager) (objects : Objects)
    (env : Environment) (fuel : Nat) :
    (∀ r ∈ m.Requests,
      ((m.Flush true objects env fuel).objects r).OnProcessRequestComplete = none ∧
      ((m.Flush true objects env fuel).objects r).OnRequestProgress = none ∧
      Effect.ClearOnProcessRequestComplete r ∈ (m.Flush true objects env fuel).trace ∧
      Effect.ClearOnRequestProgress r ∈ (m.Flush true objects env fuel).trace) ∧
    Precedes Effect.isClearDelegate Effect.isTicking (m.Flush true objects env fuel).trace ∧
    (m.Flush false objects env fuel).objects = objects ∧
    (∀ e ∈ (m.Flush false objects env fuel).trace, e.isClearDelegate = false) := by
  obtain ⟨hclears, hquiet⟩ := FlushShutdown.loop_trace m.Requests objects
  have hloop := FlushLoop_trace_ticking env fuel 0 (env.now 0) m
  refine ⟨?_, ?_, rfl, ?_⟩
  · intro r hr
    obtain ⟨-, -, -, hnone, -⟩ := FlushShutdown.loop_objects m.Requests objects r
    obtain ⟨hc1, hc2⟩ := hclears r hr
    refine ⟨(hnone (Or.inl hr)).1, (hnone (Or.inl hr)).2, ?_, ?_⟩
    · simp only [Flush, FlushShutdown, if_true, List.mem_append]
      exact Or.inl (Or.inr hc1)
    · simp only [Flush, FlushShutdown, if_true, List.mem_append]
      exact Or.inl (Or.inr hc2)
  · simp only [Flush, FlushShutdown, if_true]
    apply Precedes_append
    · intro e he
      exact (hloop e he).2
    · intro e he
      rcases List.mem_append.mp he with h | h
      · by_cases hlen : m.Requests.length = 0
        · simp [hlen] at h
        · simp only [ne_eq, hlen, not_false_eq_true, if_true, List.mem_singleton] at h
          subst h
          rfl
      · exact hquiet e h
  · intro e he
    simp only [Flush, Bool.false_eq_true, if_false, List.nil_append] at he
    exact (hloop e he).2

end FHttpManager

namespace FHttpManager

/-! ## Termination of `Flush` when every `Tick` of the drain returns -/

theorem Pumped_succ (env : Environment) (m : FHttpManager) (k : Nat) (x : FHttpManager)
    (h : Pumped env m (k + 1) = some x) :
    ∃ (mid : FHttpManager) (b : Bool), Pumped env m k = some mid ∧
      (mid.Tick (FlushDeltaSeconds env (env.now (k + 1)) (env.now k))
        (env.Completed k)).result = some (x, b) := by
  unfold Pumped at h
  cases hk : Pumped env m k with
  | none => simp [hk] at h
  | some mid =>
    simp only [hk, Option.map_eq_some'] at h
    obtain ⟨out, hout, rfl⟩ := h
    exact ⟨mid, out.2, rfl, hout⟩

theorem Pumped_defined_before (env : Environment) (m : FHttpManager) (k : Nat) :
    ∀ d, (Pumped env m (k + d)).isSome = true → (Pumped env m k).isSome = true := by
  intro d
  induction d with
  | zero => exact fun h => h
  | succ d ih =>
    intro h
    obtain ⟨x, hx⟩ := Option.isSome_iff_exists.mp h
    obtain ⟨mid, -, hmid, -⟩ := Pumped_succ env m (k + d) x hx
    exact ih (by rw [hmid]; rfl)

theorem Pumped_sublist (env : Environment) (m : FHttpManager) (k : Nat) (a : FHttpManager)
    (ha : Pumped env m k = some a) :
    ∀ d b, Pumped env m (k + d) = some b → b.Requests.Sublist a.Requests := by
  intro d
  induction d with
  | zero =>
    intro b hb
    have : a = b := by
      rw [Nat.add_zero, ha] at hb
      injection hb
    subst this
    exact List.Sublist.refl _
  | succ d ih =>
    intro b hb
    obtain ⟨mid, c, hmid, htick⟩ := Pumped_succ env m (k + d) b hb
    obtain ⟨fin, -, -, -, -, -, -, -, hsub, -⟩ := Tick_returns _ _ _ _ htick
    exact hsub.trans (ih mid hmid)

theorem Pumped_shorter (env : Environment) (m : FHttpManager) (k j : Nat)
    (a b : FHttpManager) (r : FHttpRequestPtr) (ha : Pumped env m k = some a)
    (hr : r ∈ a.Requests) (hkj : k ≤ j) (hb : Pumped env m (j + 1) = some b)
    (hdone : r ∈ env.Completed j) : b.Requests.length < a.Requests.length := by
  obtain ⟨mid, c, hmid, htick⟩ := Pumped_succ env m j b hb
  obtain ⟨fin, -, -, -, -, -, -, hcount, hsub, -⟩ := Tick_returns _ _ _ _ htick
  have hmidsub : mid.Requests.Sublist a.Requests := by
    have hj : j = k + (j - k) := by omega
    rw [hj] at hmid
    exact Pumped_sublist env m k a ha (j - k) mid hmid
  have hle1 : b.Requests.length ≤ mid.Requests.length := hsub.length_le
  have hle2 : mid.Requests.length ≤ a.Requests.length := hmidsub.length_le
  by_cases hrm : r ∈ mid.Requests
  · have hne : b.Requests.length ≠ mid.Requests.length := by
      intro hlen
      have heq : b.Requests = mid.Requests := hsub.eq_of_length hlen
      have h1 : 1 ≤ mid.Requests.count r := List.one_le_count_iff.mpr hrm
      have h2 : 1 ≤ (env.Completed j).count r := List.one_le_count_iff.mpr hdone
      have h3 := hcount r
      simp only at h3
      rw [heq] at h3
      omega
    omega
  · have hne : mid.Requests.length ≠ a.Requests.length := by
      intro hlen
      have heq : mid.Requests = a.Requests := hmidsub.eq_of_length hlen
      rw [heq] at hrm
      exact hrm hr
    omega

theorem FlushLoop_exit (env : Environment) (fuel k : Nat) (LastTime : Int)
    (m : FHttpManager) (h : m.Requests = []) :
    FlushLoop env fuel k LastTime m = { trace := [], result := .returned m } := by
  cases fuel with
  | zero => simp [FlushLoop, h]
  | succ fuel => simp [FlushLoop, h]

theorem FlushLoop_step (env : Environment) (fuel k : Nat) (LastTime : Int)
    (m : FHttpManager) (out : FHttpManager × Bool) (hne : m.Requests ≠ [])
    (htick : (m.Tick (FlushDeltaSeconds env (env.now (k + 1)) LastTime)
      (env.Completed k)).result = some out) :
    (FlushLoop env (fuel + 1) k LastTime m).result =
      (FlushLoop env fuel (k + 1) (env.now (k + 1)) out.1).result := by
  have hlen : 0 < m.Requests.length := List.length_pos.mpr hne
  simp only [FlushLoop, hlen, if_true, htick]

theorem FlushLoop_returned_empty (env : Environment) (fuel : Nat) :
    ∀ (k : Nat) (LastTime : Int) (m after : FHttpManager),
      (FlushLoop env fuel k LastTime m).result = .returned after → after.Requests = [] := by
  induction fuel with
  | zero =>
    intro k LastTime m after h
    by_cases hlen : 0 < m.Requests.length
    · simp [FlushLoop, hlen] at h
    · simp only [FlushLoop, hlen, if_false, FlushResult.returned.injEq] at h
      subst h
      exact List.length_eq_zero.mp (Nat.eq_zero_of_not_pos hlen)
  | succ fuel ih =>
    intro k LastTime m after h
    by_cases hlen : 0 < m.Requests.length
    · unfold FlushLoop at h
      simp only [hlen, if_true] at h
      cases hres : (m.Tick (FlushDeltaSeconds env (env.now (k + 1)) LastTime)
          (env.Completed k)).result with
      | none => simp [hres] at h
      | some out =>
        simp only [hres] at h
        exact ih _ _ _ after h
    · simp only [FlushLoop, hlen, if_false, FlushResult.returned.injEq] at h
      subst h
      exact List.length_eq_zero.mp (Nat.eq_zero_of_not_pos hlen)

theorem FlushLoop_lift (env : Environment) (m : FHttpManager) :
    ∀ (d k : Nat) (a b : FHttpManager), Pumped env m k = some a →
      Pumped env m (k + d) = some b →
      (∃ (N : Nat) (after : FHttpManager), ∀ fuel, N ≤ fuel →
        (FlushLoop env fuel (k + d) (env.now (k + d)) b).result = .returned after ∧
        after.Requests = []) →
      ∃ (N : Nat) (after : FHttpManager), ∀ fuel, N ≤ fuel →
        (FlushLoop env fuel k (env.now k) a).result = .returned after ∧
        after.Requests = [] := by
  intro d
  induction d with
  | zero =>
    intro k a b ha hb hfin
    have : a = b := by
      rw [Nat.add_zero, ha] at hb
      injection hb
    subst this
    exact hfin
  | succ d ih =>
    intro k a b ha hb hfin
    by_cases hempty : a.Requests = []
    · refine ⟨0, a, ?_⟩
      intro fuel _
      rw [FlushLoop_exit env fuel k (env.now k) a hempty]
      exact ⟨rfl, hempty⟩
    · have hkd : k + (d + 1) = (k + 1) + d := by omega
      rw [hkd] at hb hfin
      have hdef : (Pumped env m (k + 1)).isSome = true :=
        Pumped_defined_before env m (k + 1) d (by rw [hb]; rfl)
      obtain ⟨a1, ha1⟩ := Option.isSome_iff_exists.mp hdef
      obtain ⟨mid, c, hmid, htick⟩ := Pumped_succ env m k a1 ha1
      have hmida : mid = a := by
        rw [ha] at hmid
        injection hmid with h
        exact h.symm
      subst hmida
      obtain ⟨N, after, hN⟩ := ih (k + 1) a1 b ha1 hb hfin
      refine ⟨N + 1, after, ?_⟩
      intro fuel hfuel
      obtain ⟨f, rfl⟩ : ∃ f, fuel = f + 1 := ⟨fuel - 1, by omega⟩
      rw [FlushLoop_step env f k (env.now k) mid (a1, c) hempty htick]
      exact hN f (by omega)

theorem FlushLoop_undefined (env : Environment) (fuel k : Nat) (LastTime : Int)
    (m : FHttpManager) (hne : m.Requests ≠ [])
    (htick : (m.Tick (FlushDeltaSeconds env (env.now (k + 1)) LastTime)
      (env.Completed k)).result = none) :
    (FlushLoop env (fuel + 1) k LastTime m).result = .undefined := by
  have hlen : 0 < m.Requests.length := List.length_pos.mpr hne
  simp only [FlushLoop, hlen, if_true, htick]

/-- From a state of the drain whose loop never runs into an undefined `Tick`:
either the loop returns, or the state `d` iterations on exists and the loop
from there never runs into an undefined `Tick` either. -/
theorem FlushLoop_walk (env : Environment) (m : FHttpManager) :
    ∀ (d k : Nat) (a : FHttpManager), Pumped env m k = some a →
      (∀ fuel, (FlushLoop env fuel k (env.now k) a).result ≠ .undefined) →
      (∃ (N : Nat) (after : FHttpManager), ∀ fuel, N ≤ fuel →
        (FlushLoop env fuel k (env.now k) a).result = .returned after ∧
        after.Requests = []) ∨
      (∃ b : FHttpManager, Pumped env m (k + d) = some b ∧
        ∀ fuel, (FlushLoop env fuel (k + d) (env.now (k + d)) b).result ≠ .undefined) := by
  intro d
  induction d with
  | zero =>
    intro k a ha hdef
    exact Or.inr ⟨a, ha, hdef⟩
  | succ d ih =>
    intro k a ha hdef
    rcases ih k a ha hdef with hl | ⟨b, hb, hbdef⟩
    · exact Or.inl hl
    · by_cases hempty : b.Requests = []
      · refine Or.inl (FlushLoop_lift env m d k a b ha hb ⟨0, b, ?_⟩)
        intro fuel _
        rw [FlushLoop_exit env fuel (k + d) (env.now (k + d)) b hempty]
        exact ⟨rfl, hempty⟩
      · cases hres : (b.Tick (FlushDeltaSeconds env (env.now (k + d + 1)) (env.now (k + d)))
            (env.Completed (k + d))).result with
        | none =>
          exact absurd (FlushLoop_undefined env 0 (k + d) (env.now (k + d)) b hempty hres)
            (hbdef 1)
        | some out =>
          refine Or.inr ⟨out.1, ?_, ?_⟩
          · show Pumped env m (k + d + 1) = some out.1
            unfold Pumped
            simp only [hb, hres, Option.map_some']
          · intro fuel
            have hstep := FlushLoop_step env fuel (k + d) (env.now (k + d)) b out hempty hres
            have := hbdef (fuel + 1)
            rw [hstep] at this
            exact this

theorem FlushLoop_terminates (env : Environment) (m : FHttpManager)
    (hrep : EventuallyReported env m) :
    ∀ (n k : Nat) (a : FHttpManager), Pumped env m k = some a → a.Requests.length ≤ n →
      (∀ fuel, (FlushLoop env fuel k (env.now k) a).result ≠ .undefined) →
      ∃ (N : Nat) (after : FHttpManager), ∀ fuel, N ≤ fuel →
        (FlushLoop env fuel k (env.now k) a).result = .returned after ∧
        after.Requests = [] := by
  intro n
  induction n with
  | zero =>
    intro k a _ hlen _
    have hempty : a.Requests = [] := List.length_eq_zero.mp (Nat.le_zero.mp hlen)
    refine ⟨0, a, ?_⟩
    intro fuel _
    rw [FlushLoop_exit env fuel k (env.now k) a hempty]
    exact ⟨rfl, hempty⟩
  | succ n ih =>
    intro k a ha hlen hdef
    cases hreq : a.Requests with
    | nil =>
      refine ⟨0, a, ?_⟩
      intro fuel _
      rw [FlushLoop_exit env fuel k (env.now k) a hreq]
      exact ⟨rfl, hreq⟩
    | cons r rest =>
      have hr : r ∈ a.Requests := by
        rw [hreq]
        exact List.mem_cons_self _ _
      obtain ⟨j, hkj, hdone⟩ := hrep k a ha r hr
      rcases FlushLoop_walk env m (j + 1 - k) k a ha hdef with hl | ⟨b, hb, hbdef⟩
      · exact hl
      · have hj : k + (j + 1 - k) = j + 1 := by omega
        have hb2 : Pumped env m (j + 1) = some b := by
          rw [← hj]
          exact hb
        have hshort := Pumped_shorter env m k j a b r ha hr hkj hb2 hdone
        have hfin : ∃ (N : Nat) (after : FHttpManager), ∀ fuel, N ≤ fuel →
            (FlushLoop env fuel (k + (j + 1 - k)) (env.now (k + (j + 1 - k))) b).result =
              .returned after ∧ after.Requests = [] := by
          rw [hj]
          refine ih (j + 1) b hb2 (by omega) ?_
          rw [← hj]
          exact hbdef
        exact FlushLoop_lift env m (j + 1 - k) k a b ha hb hfin

/-- What holds of `Flush` on the code.  Given a backend that always eventually
reports completion (`EventuallyReported`), a `Flush` none of whose `Tick`
calls is undefined terminates: from some number of iterations on the loop
returns, with the active list empty.  Whenever `Flush` returns, the active
list is empty.  When the active list is empty on entry, `Flush` returns the
manager as it is and its trace is empty. -/
theorem Flush_returns_when_defined (m : FHttpManager) (bShutdown : Bool) (objects : Objects)
    (env : Environment) :
    (EventuallyReported env m →
      (∀ fuel, (m.Flush bShutdown objects env fuel).result ≠ .undefined) →
      ∃ (N : Nat) (after : FHttpManager), ∀ fuel, N ≤ fuel →
        (m.Flush bShutdown objects env fuel).result = .returned after ∧
        after.Requests = []) ∧
    (∀ (fuel : Nat) (after : FHttpManager),
      (m.Flush bShutdown objects env fuel).result = .returned after → after.Requests = []) ∧
    (m.Requests = [] → ∀ fuel,
      (m.Flush bShutdown objects env fuel).result = .returned m ∧
      (m.Flush bShutdown objects env fuel).trace = []) := by
  refine ⟨?_, ?_, ?_⟩
  · intro hrep hdef
    exact FlushLoop_terminates env m hrep m.Requests.length 0 m rfl (le_refl _)
      (fun fuel => hdef fuel)
  · intro fuel after h
    exact FlushLoop_returned_empty env fuel 0 (env.now 0) m after h
  · intro hempty fuel
    simp only [Flush, FlushLoop_exit env fuel 0 (env.now 0) m hempty, FlushShutdown, hempty,
      FlushShutdown.loop, List.length_nil, ne_eq, not_true_eq_false, if_false,
      List.append_nil, and_true]
    cases bShutdown <;> simp

/-! ## C8: `Flush` at a drain in which a deferred-destroy entry expires -/

theorem slowEnvironment_delta (k : Nat) :
    FlushDeltaSeconds slowEnvironment (slowEnvironment.now (k + 1)) (slowEnvironment.now k) =
      1 := by
  simp [FlushDeltaSeconds, slowEnvironment]

theorem Tick_one_pending (t d : ℚ) (r q : FHttpRequestPtr) (D : ℚ) (h : 0 < t - d) :
    (Tick { Requests := [q], PendingDestroyRequests := [⟨t, r⟩], DeferredDestroyDelay := D }
      d []).result =
      some ({ Requests := [q], PendingDestroyRequests := [⟨t - d, r⟩],
              DeferredDestroyDelay := D }, true) := by
  simp [Tick, TickPendingDestroy, FinishCompleted, not_le.mpr h]

theorem slowEnvironment_tail :
    ∀ (n fuel k : Nat), 1 ≤ k → k + n = 10 →
      (FlushLoop slowEnvironment fuel k (slowEnvironment.now k)
        { Requests := [2], PendingDestroyRequests := [⟨(n : ℚ) + 1, 1⟩],
          DeferredDestroyDelay := 10 }).result =
        if n < fuel then .undefined else .outOfFuel := by
  intro n
  induction n with
  | zero =>
    intro fuel k _ hk
    cases fuel with
    | zero => simp [FlushLoop]
    | succ f =>
      have htick :
          (Tick
            { Requests := [2], PendingDestroyRequests := [⟨((0 : Nat) : ℚ) + 1, 1⟩],
              DeferredDestroyDelay := 10 }
            (FlushDeltaSeconds slowEnvironment (slowEnvironment.now (k + 1))
              (slowEnvironment.now k)) (slowEnvironment.Completed k)).result = none := by
        rw [slowEnvironment_delta]
        apply (Tick_undefined_iff _ _ _).mpr
        exact ⟨⟨((0 : Nat) : ℚ) + 1, 1⟩, by simp, by norm_num⟩
      rw [FlushLoop_undefined slowEnvironment f k (slowEnvironment.now k) _ (by simp) htick]
      split_ifs <;> first | rfl | (exfalso; omega)
  | succ n ih =>
    intro fuel k hk1 hk
    cases fuel with
    | zero => simp [FlushLoop]
    | succ f =>
      have hcompleted : slowEnvironment.Completed k = [] := by
        have h0 : k ≠ 0 := by omega
        have h10 : k < 10 := by omega
        simp [slowEnvironment, h0, h10]
      have hpos : (0 : ℚ) < ((n + 1 : Nat) : ℚ) + 1 - 1 := by
        push_cast
        have : (0 : ℚ) ≤ (n : ℚ) := Nat.cast_nonneg n
        linarith
      have hage : ((n + 1 : Nat) : ℚ) + 1 - 1 = (n : ℚ) + 1 := by
        push_cast
        ring
      have htick :
          (Tick
            { Requests := [2], PendingDestroyRequests := [⟨((n + 1 : Nat) : ℚ) + 1, 1⟩],
              DeferredDestroyDelay := 10 }
            (FlushDeltaSeconds slowEnvironment (slowEnvironment.now (k + 1))
              (slowEnvironment.now k)) (slowEnvironment.Completed k)).result =
          some ({ Requests := [2], PendingDestroyRequests := [⟨(n : ℚ) + 1, 1⟩],
                  DeferredDestroyDelay := 10 }, true) := by
        rw [slowEnvironment_delta, hcompleted, Tick_one_pending _ _ _ _ _ hpos, hage]
      rw [FlushLoop_step slowEnvironment f k (slowEnvironment.now k) _ _ (by simp) htick,
        ih f (k + 1) (by omega) (by omega)]
      split_ifs <;> first | rfl | (exfalso; omega)

theorem slowEnvironment_reported :
    EventuallyReported slowEnvironment ((new.AddThreadedRequest 1).1.AddThreadedRequest 2).1 := by
  intro k mid hk r hr
  have hk2 : Pumped slowEnvironment ((new.AddThreadedRequest 1).1.AddThreadedRequest 2).1
      (0 + k) = some mid := by
    rw [Nat.zero_add]
    exact hk
  have hsub := Pumped_sublist slowEnvironment _ 0 _ rfl k mid hk2
  have hr2 : r ∈ ((new.AddThreadedRequest 1).1.AddThreadedRequest 2).1.Requests :=
    hsub.subset hr
  refine ⟨k + 10, by omega, ?_⟩
  have h0 : k + 10 ≠ 0 := by omega
  have h10 : ¬ k + 10 < 10 := by omega
  simpa [slowEnvironment, h0, h10, new, AddThreadedRequest, AddRequest] using hr2

/-- C8, the code at the failing input.  Requests 1 and 2 are added with
`AddThreadedRequest` to the new manager and `Flush` is called.  The backend
always eventually reports completion: the worker hands request 1 over in the
first `Tick` and both requests in every `Tick` from the eleventh on.  The
clock readings are one second apart, so each `Tick` of the loop gets
`DeltaSeconds = 1`.  The first `Tick` finishes request 1 and creates its
deferred-destroy entry with 10 seconds; the next nine age it to 1; in the
eleventh it reaches 0 and is erased, and that `Tick` has no defined result.
So `Flush` never returns: with up to ten iterations granted the loop is still
running, with more its behaviour is undefined. -/
theorem Flush_undefined_at_expiry :
    EventuallyReported slowEnvironment ((new.AddThreadedRequest 1).1.AddThreadedRequest 2).1 ∧
    (∀ (bShutdown : Bool) (objects : Objects) (fuel : Nat),
      (((new.AddThreadedRequest 1).1.AddThreadedRequest 2).1.Flush bShutdown objects
        slowEnvironment fuel).result = if 10 < fuel then .undefined else .outOfFuel) ∧
    (∀ (bShutdown : Bool) (objects : Objects) (fuel : Nat) (after : FHttpManager),
      (((new.AddThreadedRequest 1).1.AddThreadedRequest 2).1.Flush bShutdown objects
        slowEnvironment fuel).result ≠ .returned after) := by
  have hrun : ∀ (bShutdown : Bool) (objects : Objects) (fuel : Nat),
      (((new.AddThreadedRequest 1).1.AddThreadedRequest 2).1.Flush bShutdown objects
        slowEnvironment fuel).result = if 10 < fuel then .undefined else .outOfFuel := by
    intro bShutdown objects fuel
    show (FlushLoop slowEnvironment fuel 0 (slowEnvironment.now 0)
      ((new.AddThreadedRequest 1).1.AddThreadedRequest 2).1).result = _
    cases fuel with
    | zero => simp [FlushLoop, new, AddThreadedRequest, AddRequest]
    | succ f =>
      have htick : (Tick ((new.AddThreadedRequest 1).1.AddThreadedRequest 2).1
          (FlushDeltaSeconds slowEnvironment (slowEnvironment.now (0 + 1))
            (slowEnvironment.now 0)) (slowEnvironment.Completed 0)).result =
          some ({ Requests := [2], PendingDestroyRequests := [⟨((9 : Nat) : ℚ) + 1, 1⟩],
                  DeferredDestroyDelay := 10 }, true) := by
        rw [slowEnvironment_delta]
        norm_num [slowEnvironment, Tick, TickPendingDestroy, FinishCompleted, TickRequests,
          new, AddThreadedRequest, AddRequest]
      rw [FlushLoop_step slowEnvironment f 0 (slowEnvironment.now 0) _ _
        (by simp [new, AddThreadedRequest, AddRequest]) htick,
        slowEnvironment_tail 9 f 1 (le_refl _) rfl]
      split_ifs <;> first | rfl | (exfalso; omega)
  refine ⟨slowEnvironment_reported, hrun, ?_⟩
  intro bShutdown objects fuel after
  rw [hrun bShutdown objects fuel]
  by_cases h : 10 < fuel
  · simp [h]
  · simp [h]

end FHttpManager

namespace FHttpManager

/-- C7 at a concrete input: a shutdown `Flush` with two outstanding requests
whose delegates are bound; both slots of both requests are empty when the loop
is entered. -/
theorem Flush_shutdown_clears_delegates_witness :
    ((((new.AddRequest 1).AddRequest 2).Flush true
        (fun _ => { Verb := "GET", URL := "http://host/a", Status := .Processing,
                    OnProcessRequestComplete := some 1, OnRequestProgress := some 2 })
        promptEnvironment 0).objects 1).OnProcessRequestComplete = none ∧
    ((((new.AddRequest 1).AddRequest 2).Flush true
        (fun _ => { Verb := "GET", URL := "http://host/a", Status := .Processing,
                    OnProcessRequestComplete := some 1, OnRequestProgress := some 2 })
        promptEnvironment 0).objects 2).OnRequestProgress = none :=
  ⟨((Flush_shutdown_clears_delegates ((new.AddRequest 1).AddRequest 2)
      (fun _ => { Verb := "GET", URL := "http://host/a", Status := .Processing,
                  OnProcessRequestComplete := some 1, OnRequestProgress := some 2 })
      promptEnvironment 0).1 1 (by simp [new, AddRequest])).1,
   ((Flush_shutdown_clears_delegates ((new.AddRequest 1).AddRequest 2)
      (fun _ => { Verb := "GET", URL := "http://host/a", Status := .Processing,
                  OnProcessRequestComplete := some 1, OnRequestProgress := some 2 })
      promptEnvironment 0).1 2 (by simp [new, AddRequest])).2.1⟩

end FHttpManager

namespace FHttpManager

/-! ## C11: a request is in the active list once at most -/

theorem Nodup_call (m after : FHttpManager) (c : Call) (h : m.Requests.Nodup)
    (hfresh : match c with
      | .AddRequest Request => Request ∉ m.Requests
      | .AddThreadedRequest Request => Request ∉ m.Requests
      | _ => True)
    (hcall : m.call c = some after) : after.Requests.Nodup := by
  cases c with
  | AddRequest r =>
    simp only [call, Option.some.injEq] at hcall
    subst hcall
    simp only [AddRequest]
    exact List.Nodup.append h (List.nodup_singleton r) (by simpa using hfresh)
  | AddThreadedRequest r =>
    simp only [call, AddThreadedRequest, Option.some.injEq] at hcall
    subst hcall
    simp only [AddRequest]
    exact List.Nodup.append h (List.nodup_singleton r) (by simpa using hfresh)
  | RemoveRequest r =>
    simp only [call, Option.some.injEq] at hcall
    subst hcall
    simp only [RemoveRequest]
    exact h.filter _
  | CancelThreadedRequest r =>
    simp only [call, CancelThreadedRequest, Option.some.injEq] at hcall
    subst hcall
    exact h
  | Tick d done =>
    simp only [call, Option.map_eq_some'] at hcall
    obtain ⟨out, hout, rfl⟩ := hcall
    obtain ⟨fin, -, -, -, -, -, -, -, hsub, -⟩ := Tick_returns m d done out hout
    exact h.sublist hsub

theorem Nodup_calls_take (cs : List Call) :
    ∀ (m : FHttpManager), m.Requests.Nodup → AddsInactive m cs →
      ∀ (n : Nat) (mid : FHttpManager), calls m (cs.take n) = some mid →
        mid.Requests.Nodup := by
  induction cs with
  | nil =>
    intro m h _ n mid hret
    simp only [List.take_nil, calls, Option.some.injEq] at hret
    exact hret ▸ h
  | cons c rest ih =>
    intro m h hadds n mid hret
    cases n with
    | zero =>
      simp only [List.take_zero, calls, Option.some.injEq] at hret
      exact hret ▸ h
    | succ n =>
      unfold AddsInactive at hadds
      obtain ⟨hfresh, hrest⟩ := hadds
      simp only [List.take_succ_cons, calls] at hret
      cases hcall : m.call c with
      | none => simp [hcall] at hret
      | some next =>
        simp only [hcall] at hret hrest
        exact ih next (Nodup_call m next c h hfresh hcall) hrest n mid hret

/-- C11.  Start from the new manager and make any sequence of `AddRequest`,
`AddThreadedRequest`, `RemoveRequest`, `CancelThreadedRequest` and `Tick`
calls in which a request is added only while it is not in the active list.
After every call of the sequence (that is, in the state that any number `n`
of its first calls leaves) every request is in the active list once at most. -/
theorem active_once_of_adds_inactive (cs : List Call) (hadds : AddsInactive new cs)
    (n : Nat) (mid : FHttpManager) (hret : calls new (cs.take n) = some mid) :
    mid.Requests.Nodup ∧ ∀ r, mid.Requests.count r ≤ 1 := by
  have h := Nodup_calls_take cs new List.nodup_nil hadds n mid hret
  exact ⟨h, List.nodup_iff_count_le_one.mp h⟩

/-- C11 at a concrete run: request 1 is added, removed, and added again while
it waits in the deferred-destroy list; request 2 is added, finished by a
`Tick` and added again.  After the six calls each is in the active list once. -/
theorem active_once_of_adds_inactive_witness :
    calls new
        ([Call.AddRequest 1, Call.RemoveRequest 1, Call.AddRequest 1,
          Call.AddThreadedRequest 2, Call.Tick 1 [2], Call.AddThreadedRequest 2,
          Call.CancelThreadedRequest 2].take 6) =
      some { Requests := [1, 2], PendingDestroyRequests := [⟨9, 1⟩, ⟨10, 2⟩],
             DeferredDestroyDelay := 10 } ∧
    ([1, 2] : List FHttpRequestPtr).count 1 ≤ 1 ∧
    ([1, 2] : List FHttpRequestPtr).count 2 ≤ 1 := by
  have hrun : calls new
      ([Call.AddRequest 1, Call.RemoveRequest 1, Call.AddRequest 1,
        Call.AddThreadedRequest 2, Call.Tick 1 [2], Call.AddThreadedRequest 2,
        Call.CancelThreadedRequest 2].take 6) =
      some { Requests := [1, 2], PendingDestroyRequests := [⟨9, 1⟩, ⟨10, 2⟩],
             DeferredDestroyDelay := 10 } := by
    norm_num [calls, call, Tick, TickPendingDestroy, FinishCompleted, TickRequests,
      new, AddThreadedRequest, AddRequest, RemoveRequest, CancelThreadedRequest]
  have h := active_once_of_adds_inactive
    [Call.AddRequest 1, Call.RemoveRequest 1, Call.AddRequest 1,
      Call.AddThreadedRequest 2, Call.Tick 1 [2], Call.AddThreadedRequest 2,
      Call.CancelThreadedRequest 2]
    (by norm_num [AddsInactive, call, Tick, TickPendingDestroy, FinishCompleted, TickRequests,
      new, AddThreadedRequest, AddRequest, RemoveRequest, CancelThreadedRequest])
    6 { Requests := [1, 2], PendingDestroyRequests := [⟨9, 1⟩, ⟨10, 2⟩],
        DeferredDestroyDelay := 10 }
    hrun
  exact ⟨hrun, h.2 1, h.2 2⟩

end FHttpManager

namespace FHttpManager

/-! ## C12: the log lines -/

theorem Effect_isLog_of_isTicking (e : Effect) (h : e.isTicking = true) : e.isLog = false := by
  cases e <;> simp [Effect.isTicking] at h <;> rfl

theorem FlushShutdown.loop_logs (Requests : List FHttpRequestPtr) :
    ∀ (objects base : Objects),
      (∀ r, (objects r).Verb = (base r).Verb ∧ (objects r).URL = (base r).URL ∧
        (objects r).Status = (base r).Status) →
      (FlushShutdown.loop Requests objects).2.filter Effect.isLog =
        Requests.map (fun r => Effect.Log ("\t" ++ LogLineOfSpec (base r).Verb (base r).URL
          (EHttpRequestStatus.ToString (base r).Status))) := by
  induction Requests with
  | nil =>
    intro objects base _
    simp [FlushShutdown.loop]
  | cons q rest ih =>
    intro objects base hsame
    obtain ⟨hv, hu, hs⟩ := hsame q
    have hnext := ih (Function.update objects q
      { objects q with OnProcessRequestComplete := none, OnRequestProgress := none }) base
      (by
        intro r
        by_cases hrq : r = q
        · subst hrq
          simp only [Function.update_same]
          exact hsame r
        · simp only [Function.update_noteq hrq]
          exact hsame r)
    have htab : "\tverb=" = "\t" ++ "verb=" := by decide
    simp only [FlushShutdown.loop, List.filter_cons, Effect.isLog, Bool.false_eq_true,
      if_false, if_true, List.map_cons, Function.update_same]
    rw [hnext]
    simp only [hv, hu, hs, LogLineOfSpec, htab, String.append_assoc]

/-- C12 (as amended).  `ToString` gives each of the five statuses a name that
is not empty, and different statuses different names.  `DumpRequests` logs a
header and then, for each entry of the active list in order, one line: the
text `verb=[` followed by the verb, `] url=[` followed by the URL and
`] status=` followed by the name of the status.  The log lines of `Flush(true)`
are a header when there are outstanding requests and then, for each entry of
the active list in order, one line: a tab followed by the line of the
specification, `verb=` followed by the verb, ` url=` followed by the URL and
` status=` followed by the name of the status. -/
theorem log_lines_of_active (m : FHttpManager) (objects : Objects) (env : Environment)
    (fuel : Nat) :
    (∀ s, EHttpRequestStatus.ToString s ≠ "") ∧
    Function.Injective EHttpRequestStatus.ToString ∧
    DumpRequests m objects =
      Effect.Log ("------- (" ++ toString m.Requests.length ++ ") Http Requests") ::
        m.Requests.map (fun r => Effect.Log ("verb=[" ++ (objects r).Verb ++ "] url=[" ++
          (objects r).URL ++ "] status=" ++ EHttpRequestStatus.ToString (objects r).Status)) ∧
    (m.Flush true objects env fuel).trace.filter Effect.isLog =
      (if m.Requests.length ≠ 0 then
        [Effect.Log ("Http module shutting down, but needs to wait on "
          ++ toString m.Requests.length ++ " outstanding Http requests:")]
      else []) ++
      m.Requests.map (fun r => Effect.Log ("\t" ++ LogLineOfSpec (objects r).Verb
        (objects r).URL (EHttpRequestStatus.ToString (objects r).Status))) := by
  refine ⟨?_, ?_, rfl, ?_⟩
  · intro s
    cases s <;> decide
  · intro a b h
    cases a <;> cases b <;> first | rfl | exact absurd h (by decide)
  · have hloop : (FlushLoop env fuel 0 (env.now 0) m).trace.filter Effect.isLog = [] := by
      apply List.filter_eq_nil_iff.mpr
      intro e he
      rw [Effect_isLog_of_isTicking e (FlushLoop_trace_ticking env fuel 0 (env.now 0) m e he).1]
      simp
    have hshut := FlushShutdown.loop_logs m.Requests objects objects (fun _ => ⟨rfl, rfl, rfl⟩)
    simp only [Flush, FlushShutdown, if_true, List.filter_append, hloop, hshut,
      List.append_nil]
    by_cases hlen : m.Requests.length = 0
    · simp [hlen]
    · simp [hlen, Effect.isLog]

/-- C12, counterexample.  One active request with verb `GET`, URL `u` and
status `NotStarted`: `DumpRequests` logs `verb=[GET] url=[u] status=NotStarted`;
the line of the specification is not logged, and the text `verb=GET` is not
even part of the line that is. -/
theorem DumpRequests_line_has_brackets :
    DumpRequests (new.AddRequest 1)
        (fun _ => { Verb := "GET", URL := "u", Status := .NotStarted,
                    OnProcessRequestComplete := none, OnRequestProgress := none }) =
      [Effect.Log "------- (1) Http Requests",
        Effect.Log "verb=[GET] url=[u] status=NotStarted"] ∧
    LogLineOfSpec "GET" "u" (EHttpRequestStatus.ToString .NotStarted) =
      "verb=GET url=u status=NotStarted" ∧
    Effect.Log (LogLineOfSpec "GET" "u" (EHttpRequestStatus.ToString .NotStarted)) ∉
      DumpRequests (new.AddRequest 1)
        (fun _ => { Verb := "GET", URL := "u", Status := .NotStarted,
                    OnProcessRequestComplete := none, OnRequestProgress := none }) ∧
    ¬ ("verb=GET".toList <:+: "verb=[GET] url=[u] status=NotStarted".toList) := by
  refine ⟨by decide, by decide, by decide, by decide⟩

end FHttpManager

namespace FHttpManager

/-! ## C13: the mutex `RequestLock` -/

/-- C13, the code.  Each of `AddRequest`, `RemoveRequest`, `Tick` and
`DumpRequests` mutates or scans the lists of the manager, and makes every one
of these accesses while the member mutex `RequestLock` is not held: the
`std::scoped_lock` declared at the start of the function locks no mutex. -/
theorem RequestLock_not_held (f : LockingMember) :
    ListAccesses [] (LockSteps f) ≠ [] ∧
    ∀ access ∈ ListAccesses [] (LockSteps f), Mutex.RequestLock ∉ access.2 := by
  cases f <;> decide

end FHttpManager

namespace FHttpManager

/-! ## C10: `Tick` on a state in which a deferred-destroy entry expires -/

/-- C10, the code at the failing input.  Requests 1 and 2 are added to the
new manager with `AddRequest` and request 2 is removed, which leaves request
1 active and a deferred-destroy entry for request 2 with 10 seconds.  In
`Tick(10)` the worker hands over nothing, so no handed-over request is active;
request 1 is ticked, the entry is aged to 0 and erased, and the call has no
defined result: it does not return `true`, and there is no active list after
it.  The same at a state with half a second left and `Tick(1)`. -/
theorem Tick_unreported_at_expiry_undefined :
    (((new.AddRequest 1).AddRequest 2).RemoveRequest 2).1 =
      { Requests := [1], PendingDestroyRequests := [⟨10, 2⟩], DeferredDestroyDelay := 10 } ∧
    Tick (((new.AddRequest 1).AddRequest 2).RemoveRequest 2).1 10 [] =
      { trace := [Effect.RequestTick 1 10, Effect.AgePendingDestroy 2 0,
          Effect.ErasePendingDestroy 2],
        result := none } ∧
    (Tick { Requests := [1], PendingDestroyRequests := [⟨1 / 2, 2⟩],
            DeferredDestroyDelay := 10 } 1 []).result = none := by
  refine ⟨?_, ?_, ?_⟩
  · simp [new, AddRequest, RemoveRequest]
  · norm_num [new, AddRequest, RemoveRequest, Tick, TickPendingDestroy, TickRequests]
  · norm_num [Tick, TickPendingDestroy, TickRequests]

/-! ## `Flush` at a drain in which no deferred-destroy entry expires -/

/-- The conditions of `Flush_returns_when_defined` at a concrete input:
request 1 is active, the worker hands it over in every `Tick`, and the clock
readings are less than a second apart. -/
theorem Flush_returns_when_defined_example :
    ∃ (N : Nat) (after : FHttpManager), ∀ fuel, N ≤ fuel →
      ((new.AddRequest 1).Flush true
        (fun _ => { Verb := "GET", URL := "http://host/a", Status := .Processing,
                    OnProcessRequestComplete := some 1, OnRequestProgress := some 2 })
        promptEnvironment fuel).result = .returned after ∧
      after.Requests = [] := by
  have hrep : EventuallyReported promptEnvironment (new.AddRequest 1) := by
    intro k mid hk r hr
    have hk2 : Pumped promptEnvironment (new.AddRequest 1) (0 + k) = some mid := by
      rw [Nat.zero_add]
      exact hk
    have hsub := Pumped_sublist promptEnvironment _ 0 _ rfl k mid hk2
    have hr2 : r ∈ (new.AddRequest 1).Requests := hsub.subset hr
    exact ⟨k, le_refl _, by simpa [promptEnvironment, new, AddRequest] using hr2⟩
  have htick : (Tick (new.AddRequest 1)
      (FlushDeltaSeconds promptEnvironment (promptEnvironment.now (0 + 1))
        (promptEnvironment.now 0)) (promptEnvironment.Completed 0)).result =
      some ({ Requests := [], PendingDestroyRequests := [⟨10, 1⟩],
              DeferredDestroyDelay := 10 }, true) := by
    norm_num [promptEnvironment, FlushDeltaSeconds, Tick, TickPendingDestroy, FinishCompleted,
      TickRequests, new, AddRequest]
  refine (Flush_returns_when_defined (new.AddRequest 1) true _ promptEnvironment).1 hrep ?_
  intro fuel
  show (FlushLoop promptEnvironment fuel 0 (promptEnvironment.now 0)
    (new.AddRequest 1)).result ≠ .undefined
  cases fuel with
  | zero => simp [FlushLoop, new, AddRequest]
  | succ f =>
    rw [FlushLoop_step promptEnvironment f 0 (promptEnvironment.now 0) _ _
      (by simp [new, AddRequest]) htick, FlushLoop_exit _ _ _ _ _ rfl]
    simp

end FHttpManager
